import Mathlib

/-!
# ClawStore B2 — verification of the durability core

A shallow embedding of the ClawStore B2 storage engine
(`crates/clawstore-core`): the WAL record codec (`format.rs`), the WAL
writer/reader (`wal.rs`), the data-file scan and the compactor
(`datafile.rs`, `compaction.rs`), the engine façade (`engine.rs`) and the
WAL file-naming logic.  Bytes are modelled as natural numbers below 256,
machine integers as `Nat` with explicit truncation where the code
truncates, fallible operations as `Except`/`Option` values, and the
fallible I/O calls of the mutating paths as an explicit outcome
environment.
-/

namespace ClawStore

/-! ## Little-endian integer codec (`u16::to_le_bytes`, `u32::to_le_bytes`) -/

/-- `u16::to_le_bytes` — two little-endian bytes. -/
def le16 (n : Nat) : List Nat := [n % 256, n / 256 % 256]

/-- `u32::to_le_bytes` — four little-endian bytes. -/
def le32 (n : Nat) : List Nat :=
  [n % 256, n / 256 % 256, n / 65536 % 256, n / 16777216 % 256]

/-- `u16::from_le_bytes` on two bytes. -/
def readLE16 (a b : Nat) : Nat := a + 256 * b

/-- `u32::from_le_bytes` on four bytes. -/
def readLE32 (a b c d : Nat) : Nat :=
  a + 256 * b + 65536 * c + 16777216 * d

theorem le16_length (n : Nat) : (le16 n).length = 2 := rfl

theorem le32_length (n : Nat) : (le32 n).length = 4 := rfl

theorem readLE16_le16 (n : Nat) (h : n < 65536) :
    readLE16 (n % 256) (n / 256 % 256) = n := by
  unfold readLE16; omega

theorem readLE32_le32 (n : Nat) (h : n < 4294967296) :
    readLE32 (n % 256) (n / 256 % 256) (n / 65536 % 256) (n / 16777216 % 256) = n := by
  unfold readLE32; omega

/-! ## CRC32C (Castagnoli), reflected form — the `crc32c` crate's algorithm -/

/-- Bit-reversed Castagnoli polynomial 0x1EDC6F41. -/
def crcPoly : Nat := 0x82F63B78

/-- One bit step of the reflected CRC: shift right, conditionally xor the
polynomial. -/
def crcBit (c : Nat) : Nat :=
  if c % 2 = 1 then (c / 2) ^^^ crcPoly else c / 2

/-- Process one input byte. -/
def crcByte (c b : Nat) : Nat :=
  crcBit (crcBit (crcBit (crcBit (crcBit (crcBit (crcBit (crcBit (c ^^^ b % 256))))))))

/-- `crc32c::crc32c` — CRC32C of a byte sequence with initial and final
complement. -/
def crc32c (data : List Nat) : Nat :=
  (data.foldl crcByte 0xFFFFFFFF) ^^^ 0xFFFFFFFF

theorem crcBit_lt (c : Nat) (h : c < 4294967296) : crcBit c < 4294967296 := by
  unfold crcBit crcPoly
  split
  · exact Nat.xor_lt_two_pow (n := 32) (by omega) (by norm_num)
  · omega

theorem crcByte_lt (c b : Nat) (h : c < 4294967296) : crcByte c b < 4294967296 := by
  unfold crcByte
  have h0 : c ^^^ b % 256 < 4294967296 :=
    Nat.xor_lt_two_pow (n := 32) h (by have := Nat.mod_lt b (y := 256) (by omega); omega)
  exact crcBit_lt _ (crcBit_lt _ (crcBit_lt _ (crcBit_lt _ (crcBit_lt _ (crcBit_lt _
    (crcBit_lt _ (crcBit_lt _ h0)))))))

theorem foldl_crcByte_lt (data : List Nat) (c : Nat) (h : c < 4294967296) :
    data.foldl crcByte c < 4294967296 := by
  induction data generalizing c with
  | nil => simpa
  | cons a l ih => exact ih _ (crcByte_lt _ _ h)

theorem crc32c_lt (data : List Nat) : crc32c data < 4294967296 := by
  unfold crc32c
  exact Nat.xor_lt_two_pow (n := 32)
    (foldl_crcByte_lt data 0xFFFFFFFF (by norm_num)) (by norm_num)

/-! ## Record format (`format.rs`) -/

/-- `MAGIC_ARRAY` — the ASCII bytes of "CLAW". -/
def MAGIC_ARRAY : List Nat := [0x43, 0x4C, 0x41, 0x57]

/-- `MAX_KEY_SIZE`. -/
def MAX_KEY_SIZE : Nat := 128

/-- `MAX_VALUE_SIZE` — 32 MiB. -/
def MAX_VALUE_SIZE : Nat := 32 * 1024 * 1024

/-- `HEADER_SIZE`. -/
def HEADER_SIZE : Nat := 32

/-- `Operation` — WAL operation kind. -/
inductive Operation where
  | Put
  | Delete
deriving DecidableEq, Repr

/-- The `u8` discriminant of an `Operation` (`Put = 1`, `Delete = 2`). -/
def Operation.toByte : Operation → Nat
  | .Put => 1
  | .Delete => 2

/-- Which component an `OversizedEntry` error names. -/
inductive ErrComponent where
  | key
  | value
deriving DecidableEq, Repr

/-- `ClawError` — the error taxonomy of `error.rs`, with the fields the
claims under verification inspect (paths and messages elided). -/
inductive ClawErr where
  | Io
  | WalCorrupted (offset : Nat)
  | ChecksumMismatch (expected actual offset : Nat)
  | TornWrite (expectedSize availableBytes offset : Nat)
  | OversizedEntry (entrySize maxSize : Nat) (component : ErrComponent)
  | NoMagicFound (foundBytes : List Nat)
deriving DecidableEq, Repr

/-- `ChunkHeader` — the fixed 32-byte WAL entry header. -/
structure ChunkHeader where
  magic : List Nat
  length : Nat
  checksum : Nat
  entryType : Nat
  reserved : List Nat
  padding : List Nat
deriving DecidableEq, Repr

/-- `WalEntry` — a deserialized WAL entry. -/
structure WalEntry where
  header : ChunkHeader
  key : List Nat
  value : List Nat
  operation : Operation
deriving DecidableEq, Repr

/-- `ChunkHeader::new`. -/
def ChunkHeader.mk' (length checksum : Nat) (op : Operation) : ChunkHeader :=
  { magic := MAGIC_ARRAY, length := length, checksum := checksum,
    entryType := op.toByte, reserved := [0, 0, 0], padding := List.replicate 16 0 }

/-- `ChunkHeader::to_bytes`. -/
def ChunkHeader.toBytes (h : ChunkHeader) : List Nat :=
  h.magic ++ le32 h.length ++ le32 h.checksum ++ [h.entryType] ++ h.reserved ++ h.padding

/-- `ChunkHeader::from_bytes` (on a 32-byte slice). -/
def ChunkHeader.fromBytes (b : List Nat) : ChunkHeader :=
  { magic := b.take 4
    length := readLE32 (b.getD 4 0) (b.getD 5 0) (b.getD 6 0) (b.getD 7 0)
    checksum := readLE32 (b.getD 8 0) (b.getD 9 0) (b.getD 10 0) (b.getD 11 0)
    entryType := b.getD 12 0
    reserved := [b.getD 13 0, b.getD 14 0, b.getD 15 0]
    padding := (b.drop 16).take 16 }

/-- The payload built by `serialize_entry`:
`key_len(u16 LE) | value_len(u32 LE) | op(u8) | pad(u8) | key | value`. -/
def entryPayload (key value : List Nat) (op : Operation) : List Nat :=
  le16 key.length ++ le32 value.length ++ [op.toByte, 0] ++ key ++ value

/-- The full encoded entry (header followed by payload) that
`serialize_entry` produces once the size guards pass. -/
def encodeEntry (key value : List Nat) (op : Operation) : List Nat :=
  (ChunkHeader.mk' (entryPayload key value op).length
      (crc32c (entryPayload key value op)) op).toBytes ++ entryPayload key value op

/-- `serialize_entry` — validates the size caps, then emits header + payload. -/
def serialize_entry (key value : List Nat) (op : Operation) :
    Except ClawErr (List Nat) :=
  if key.length > MAX_KEY_SIZE then
    .error (.OversizedEntry key.length MAX_KEY_SIZE .key)
  else if value.length > MAX_VALUE_SIZE then
    .error (.OversizedEntry value.length MAX_VALUE_SIZE .value)
  else
    .ok (encodeEntry key value op)

/-- `deserialize_entry` — parse and validate a WAL entry from a byte slice. -/
def deserialize_entry (data : List Nat) : Except ClawErr WalEntry :=
  if data.length < HEADER_SIZE then .error (.WalCorrupted 0)
  else
    let header := ChunkHeader.fromBytes (data.take HEADER_SIZE)
    if header.magic ≠ MAGIC_ARRAY then .error (.NoMagicFound header.magic)
    else
      let payloadEnd := HEADER_SIZE + header.length
      if data.length < payloadEnd then
        .error (.TornWrite header.length (data.length - HEADER_SIZE) HEADER_SIZE)
      else
        let payload := (data.drop HEADER_SIZE).take header.length
        let computed := crc32c payload
        if computed ≠ header.checksum then
          .error (.ChecksumMismatch header.checksum computed HEADER_SIZE)
        else if payload.length < 8 then .error (.WalCorrupted HEADER_SIZE)
        else
          let keyLen := readLE16 (payload.getD 0 0) (payload.getD 1 0)
          let valueLen := readLE32 (payload.getD 2 0) (payload.getD 3 0)
            (payload.getD 4 0) (payload.getD 5 0)
          let opByte := payload.getD 6 0
          if opByte = 1 ∨ opByte = 2 then
            let op : Operation := if opByte = 1 then .Put else .Delete
            let keyEnd := 8 + keyLen
            let valueEnd := keyEnd + valueLen
            if payload.length < valueEnd then .error (.WalCorrupted HEADER_SIZE)
            else
              .ok { header := header
                    key := (payload.drop 8).take keyLen
                    value := (payload.drop keyEnd).take valueLen
                    operation := op }
          else .error (.WalCorrupted (HEADER_SIZE + 6))

/-! ## Round-trip of the WAL record codec -/

theorem toBytes_length (L C : Nat) (op : Operation) :
    (ChunkHeader.mk' L C op).toBytes.length = HEADER_SIZE := rfl

theorem entryPayload_length (k v : List Nat) (op : Operation) :
    (entryPayload k v op).length = 8 + k.length + v.length := by
  simp [entryPayload, le16, le32]; omega

theorem fromBytes_toBytes (L C : Nat) (op : Operation)
    (hL : L < 4294967296) (hC : C < 4294967296) :
    ChunkHeader.fromBytes (ChunkHeader.mk' L C op).toBytes = ChunkHeader.mk' L C op := by
  have h : ChunkHeader.fromBytes (ChunkHeader.mk' L C op).toBytes =
      { magic := MAGIC_ARRAY
        length := readLE32 (L % 256) (L / 256 % 256) (L / 65536 % 256) (L / 16777216 % 256)
        checksum := readLE32 (C % 256) (C / 256 % 256) (C / 65536 % 256) (C / 16777216 % 256)
        entryType := op.toByte
        reserved := [0, 0, 0]
        padding := List.replicate 16 0 } := rfl
  rw [h, readLE32_le32 L hL, readLE32_le32 C hC]
  rfl

theorem take_header_encode (k v : List Nat) (op : Operation) :
    (encodeEntry k v op).take HEADER_SIZE =
      (ChunkHeader.mk' (entryPayload k v op).length
        (crc32c (entryPayload k v op)) op).toBytes :=
  List.take_left' (toBytes_length _ _ _)

theorem drop_header_encode (k v : List Nat) (op : Operation) :
    (encodeEntry k v op).drop HEADER_SIZE = entryPayload k v op :=
  List.drop_left' (toBytes_length _ _ _)

theorem encodeEntry_length (k v : List Nat) (op : Operation) :
    (encodeEntry k v op).length = HEADER_SIZE + (entryPayload k v op).length := by
  simp [encodeEntry, toBytes_length]

theorem opByte_cases (op : Operation) : op.toByte = 1 ∨ op.toByte = 2 := by
  cases op <;> simp [Operation.toByte]

/-- The entry `deserialize_entry` yields for a well-formed encoded record. -/
def expectedEntry (k v : List Nat) (op : Operation) : WalEntry :=
  { header := ChunkHeader.mk' (entryPayload k v op).length
      (crc32c (entryPayload k v op)) op
    key := k, value := v, operation := op }

theorem entryPayload_drop8 (k v : List Nat) (op : Operation) :
    (entryPayload k v op).drop 8 = k ++ v := rfl

theorem entryPayload_keyLen (k v : List Nat) (op : Operation) (h : k.length < 65536) :
    readLE16 ((entryPayload k v op).getD 0 0) ((entryPayload k v op).getD 1 0) = k.length := by
  have : readLE16 ((entryPayload k v op).getD 0 0) ((entryPayload k v op).getD 1 0) =
      readLE16 (k.length % 256) (k.length / 256 % 256) := rfl
  rw [this, readLE16_le16 _ h]

theorem entryPayload_valLen (k v : List Nat) (op : Operation) (h : v.length < 4294967296) :
    readLE32 ((entryPayload k v op).getD 2 0) ((entryPayload k v op).getD 3 0)
      ((entryPayload k v op).getD 4 0) ((entryPayload k v op).getD 5 0) = v.length := by
  have : readLE32 ((entryPayload k v op).getD 2 0) ((entryPayload k v op).getD 3 0)
      ((entryPayload k v op).getD 4 0) ((entryPayload k v op).getD 5 0) =
      readLE32 (v.length % 256) (v.length / 256 % 256)
        (v.length / 65536 % 256) (v.length / 16777216 % 256) := rfl
  rw [this, readLE32_le32 _ h]

theorem entryPayload_opByte (k v : List Nat) (op : Operation) :
    (entryPayload k v op).getD 6 0 = op.toByte := rfl

theorem entryPayload_dropKey (k v : List Nat) (op : Operation) :
    (entryPayload k v op).drop (8 + k.length) = v := by
  rw [← List.drop_drop, entryPayload_drop8, List.drop_left]

theorem opByte_if (op : Operation) :
    (if op.toByte = 1 then Operation.Put else Operation.Delete) = op := by
  cases op <;> rfl

/-- Round-trip: `deserialize_entry` inverts `serialize_entry`'s encoding
for inputs within the size caps. -/
theorem deserialize_encodeEntry (k v : List Nat) (op : Operation)
    (hk : k.length ≤ MAX_KEY_SIZE) (hv : v.length ≤ MAX_VALUE_SIZE) :
    deserialize_entry (encodeEntry k v op) = .ok (expectedEntry k v op) := by
  have hplen : (entryPayload k v op).length = 8 + k.length + v.length :=
    entryPayload_length k v op
  have hL : (entryPayload k v op).length < 4294967296 := by
    rw [hplen]
    have : k.length ≤ 128 := hk
    have : v.length ≤ 33554432 := hv
    omega
  have hC : crc32c (entryPayload k v op) < 4294967296 := crc32c_lt _
  have hlen : (encodeEntry k v op).length = HEADER_SIZE + (entryPayload k v op).length :=
    encodeEntry_length k v op
  unfold deserialize_entry
  rw [if_neg (by omega)]
  rw [take_header_encode, fromBytes_toBytes _ _ _ hL hC]
  rw [if_neg (by simp [ChunkHeader.mk'])]
  rw [if_neg (by simp [ChunkHeader.mk']; omega)]
  rw [drop_header_encode]
  simp only [ChunkHeader.mk', List.take_length]
  have hk16 : k.length < 65536 := by
    have : k.length ≤ 128 := hk
    omega
  have hv32 : v.length < 4294967296 := by
    have : v.length ≤ 33554432 := hv
    omega
  rw [entryPayload_keyLen k v op hk16, entryPayload_valLen k v op hv32,
    entryPayload_opByte, if_neg (by simp), if_neg (by omega),
    if_pos (opByte_cases op), if_neg (by omega),
    entryPayload_drop8, List.take_left, entryPayload_dropKey, List.take_length, opByte_if]
  rfl

/-! ## WAL recovery (`wal.rs`: `WalReader::recover_from_file`, `find_next_magic`)

The single-file recovery loop is modelled on the suffix of the file
starting at the current offset cursor; `find_next_magic` on the suffix
starting one byte past the cursor corresponds to the source's
`find_next_magic(&buffer, offset + 1)`. -/

/-- `find_next_magic` — index of the first 4-byte window equal to the CLAW
magic, scanning from the head of the given buffer. -/
def findNextMagic : List Nat → Option Nat
  | [] => none
  | b :: rest =>
    if (b :: rest).take 4 = MAGIC_ARRAY then some 0
    else
      match findNextMagic rest with
      | some i => some (i + 1)
      | none => none

/-- The per-file recovery loop of `WalReader::recover_from_file`, acting on
the unscanned suffix of the file's bytes. -/
def recoverLoop (buf : List Nat) : List WalEntry :=
  if _h : buf.length < HEADER_SIZE then []
  else if buf.take 4 ≠ MAGIC_ARRAY then
    match findNextMagic (buf.drop 1) with
    | some j => recoverLoop ((buf.drop 1).drop j)
    | none => []
  else
    let length := readLE32 (buf.getD 4 0) (buf.getD 5 0) (buf.getD 6 0) (buf.getD 7 0)
    if HEADER_SIZE + length > buf.length then []
    else
      match deserialize_entry (buf.take (HEADER_SIZE + length)) with
      | .ok e => e :: recoverLoop (buf.drop (HEADER_SIZE + length))
      | .error _ =>
        match findNextMagic (buf.drop 1) with
        | some j => recoverLoop ((buf.drop 1).drop j)
        | none => []
termination_by buf.length
decreasing_by
  · simp only [List.length_drop, HEADER_SIZE] at *
    omega
  · simp only [List.length_drop, HEADER_SIZE] at *
    omega
  · simp only [List.length_drop, HEADER_SIZE] at *
    omega

/-- One durable WAL operation: the key, value and kind of an entry
appended by the writer. -/
structure LogOp where
  key : List Nat
  value : List Nat
  op : Operation
deriving DecidableEq, Repr

/-- The size caps `serialize_entry` enforces. -/
def LogOp.caps (r : LogOp) : Prop :=
  r.key.length ≤ MAX_KEY_SIZE ∧ r.value.length ≤ MAX_VALUE_SIZE

instance (r : LogOp) : Decidable r.caps := by
  unfold LogOp.caps
  infer_instance

/-- The encoded bytes the WAL writer appends for this operation. -/
def LogOp.encode (r : LogOp) : List Nat := encodeEntry r.key r.value r.op

/-- The `WalEntry` recovery yields back for this operation. -/
def LogOp.entry (r : LogOp) : WalEntry := expectedEntry r.key r.value r.op

/-- Concatenation of the encodings of a list of operations (the byte
content of a WAL file holding exactly these records). -/
def encodeAll (rs : List LogOp) : List Nat := (rs.map LogOp.encode).flatten

theorem take4_encode_append (r : LogOp) (u : List Nat) :
    (r.encode ++ u).take 4 = MAGIC_ARRAY := by
  have h4 : (4 : Nat) ≤ r.encode.length := by
    rw [LogOp.encode, encodeEntry_length]
    simp only [HEADER_SIZE]
    omega
  rw [List.take_append_of_le_length h4]
  show ((ChunkHeader.mk' _ _ _).toBytes ++ _).take 4 = MAGIC_ARRAY
  rw [List.take_append_of_le_length (by simp [toBytes_length, HEADER_SIZE])]
  rfl

theorem lengthField_encode_append (r : LogOp) (u : List Nat)
    (hL : (entryPayload r.key r.value r.op).length < 4294967296) :
    readLE32 ((r.encode ++ u).getD 4 0) ((r.encode ++ u).getD 5 0)
      ((r.encode ++ u).getD 6 0) ((r.encode ++ u).getD 7 0) =
      (entryPayload r.key r.value r.op).length := by
  have hlen : r.encode.length = HEADER_SIZE + (entryPayload r.key r.value r.op).length :=
    encodeEntry_length _ _ _
  have hget : ∀ i, i < 8 → (r.encode ++ u).getD i 0 = r.encode.getD i 0 := by
    intro i hi
    apply List.getD_append
    rw [hlen]
    simp [HEADER_SIZE]
    omega
  rw [hget 4 (by omega), hget 5 (by omega), hget 6 (by omega), hget 7 (by omega)]
  have : ∀ i, i < 8 → r.encode.getD i 0 =
      ((ChunkHeader.mk' (entryPayload r.key r.value r.op).length
        (crc32c (entryPayload r.key r.value r.op)) r.op).toBytes).getD i 0 := by
    intro i hi
    show ((ChunkHeader.mk' _ _ _).toBytes ++ _).getD i 0 = _
    apply List.getD_append
    rw [toBytes_length]
    simp [HEADER_SIZE]
    omega
  rw [this 4 (by omega), this 5 (by omega), this 6 (by omega), this 7 (by omega)]
  have hrfl : readLE32
      (((ChunkHeader.mk' (entryPayload r.key r.value r.op).length
        (crc32c (entryPayload r.key r.value r.op)) r.op).toBytes).getD 4 0)
      (((ChunkHeader.mk' (entryPayload r.key r.value r.op).length
        (crc32c (entryPayload r.key r.value r.op)) r.op).toBytes).getD 5 0)
      (((ChunkHeader.mk' (entryPayload r.key r.value r.op).length
        (crc32c (entryPayload r.key r.value r.op)) r.op).toBytes).getD 6 0)
      (((ChunkHeader.mk' (entryPayload r.key r.value r.op).length
        (crc32c (entryPayload r.key r.value r.op)) r.op).toBytes).getD 7 0) =
      readLE32 ((entryPayload r.key r.value r.op).length % 256)
        ((entryPayload r.key r.value r.op).length / 256 % 256)
        ((entryPayload r.key r.value r.op).length / 65536 % 256)
        ((entryPayload r.key r.value r.op).length / 16777216 % 256) := rfl
  rw [hrfl, readLE32_le32 _ hL]

/-- Payload length of an in-caps operation is below `u32::MAX`. -/
theorem caps_payload_lt (r : LogOp) (hc : r.caps) :
    (entryPayload r.key r.value r.op).length < 4294967296 := by
  obtain ⟨hk, hv⟩ := hc
  rw [entryPayload_length]
  have : r.key.length ≤ 128 := hk
  have : r.value.length ≤ 33554432 := hv
  omega

/-- Recovery consumes one well-formed encoded record from the front of the
buffer and yields the corresponding entry. -/
theorem recoverLoop_encode_cons (r : LogOp) (u : List Nat) (hc : r.caps) :
    recoverLoop (r.encode ++ u) = r.entry :: recoverLoop u := by
  have hL := caps_payload_lt r hc
  have hlen : r.encode.length = HEADER_SIZE + (entryPayload r.key r.value r.op).length :=
    encodeEntry_length _ _ _
  have hbuflen : (r.encode ++ u).length =
      HEADER_SIZE + (entryPayload r.key r.value r.op).length + u.length := by
    rw [List.length_append, hlen]
  rw [recoverLoop]
  rw [dif_neg (by rw [hbuflen]; simp only [HEADER_SIZE]; omega)]
  rw [if_neg (by rw [take4_encode_append]; simp)]
  simp only [lengthField_encode_append r u hL]
  rw [if_neg (by omega)]
  rw [List.take_left' (by omega), List.drop_left' (by omega)]
  rw [show r.encode = encodeEntry r.key r.value r.op from rfl]
  rw [deserialize_encodeEntry r.key r.value r.op hc.1 hc.2]
  rfl

/-- Recovery of a file that is a concatenation of well-formed records
followed by arbitrary residue: the records all come back, and recovery
continues into the residue. -/
theorem recoverLoop_encodeAll_append (rs : List LogOp) (t : List Nat)
    (hc : ∀ r ∈ rs, r.caps) :
    recoverLoop (encodeAll rs ++ t) = rs.map LogOp.entry ++ recoverLoop t := by
  induction rs with
  | nil => simp [encodeAll]
  | cons r rs ih =>
    have : encodeAll (r :: rs) ++ t = r.encode ++ (encodeAll rs ++ t) := by
      simp [encodeAll]
    rw [this, recoverLoop_encode_cons r _ (hc r (by simp)),
      ih (fun x hx => hc x (by simp [hx]))]
    simp

/-- Recovery of a pure concatenation of well-formed records yields exactly
those records' entries. -/
theorem recoverLoop_nil : recoverLoop [] = [] := by
  rw [recoverLoop]
  norm_num [HEADER_SIZE]

theorem recoverLoop_encodeAll (rs : List LogOp) (hc : ∀ r ∈ rs, r.caps) :
    recoverLoop (encodeAll rs) = rs.map LogOp.entry := by
  have h := recoverLoop_encodeAll_append rs [] hc
  rw [List.append_nil] at h
  rw [h, recoverLoop_nil, List.append_nil]

/-! ## WAL writer and engine façade (`wal.rs` writer, `engine.rs`)

The file system is modelled in memory: a `WalWriter` holds the bytes of
the rotated-out files (in sequence order) and of the current file.  The
outcomes of the fallible I/O calls (`durable_sync` and open inside
`rotate`, `write_all`, the final `durable_sync`) are prescribed by an
`IOEnv`, so theorems can quantify over every injected I/O failure. -/

/-- `WAL_ROTATION_SIZE` — the compiled-in 100 MiB rotation constant. -/
def WAL_ROTATION_SIZE : Nat := 100 * 1024 * 1024

/-- Outcomes of the fallible I/O calls inside one append. -/
structure IOEnv where
  rotateSyncOk : Bool
  rotateOpenOk : Bool
  writeOk : Bool
  syncOk : Bool
deriving DecidableEq, Repr

/-- The environment in which every I/O call succeeds. -/
def envOK : IOEnv := ⟨true, true, true, true⟩

/-- `WalWriter` — current file size and sequence, plus the byte contents
of the rotated-out files and the current file. -/
structure WalWriter where
  size : Nat
  sequence : Nat
  files : List (List Nat)
  current : List Nat
deriving DecidableEq, Repr

/-- `WalWriter::rotate` — sync the current file, then open the file with
the incremented sequence (the source increments `self.sequence` before
the open, so a failed open still leaves it incremented). -/
def WalWriter.rotate (w : WalWriter) (env : IOEnv) : WalWriter × Option ClawErr :=
  if env.rotateSyncOk = false then (w, some .Io)
  else if env.rotateOpenOk = false then
    ({ w with sequence := w.sequence + 1 }, some .Io)
  else
    ({ size := 0, sequence := w.sequence + 1,
       files := w.files ++ [w.current], current := [] }, none)

/-- `WalWriter::append_durable` — serialize, rotate if
`size + len > WAL_ROTATION_SIZE`, write, durable-sync, then advance the
tracked size. -/
def WalWriter.appendDurable (w : WalWriter) (env : IOEnv)
    (key value : List Nat) (op : Operation) : WalWriter × Option ClawErr :=
  match serialize_entry key value op with
  | .error e => (w, some e)
  | .ok bytes =>
    let rot := if w.size + bytes.length > WAL_ROTATION_SIZE then w.rotate env else (w, none)
    match rot.2 with
    | some e => (rot.1, some e)
    | none =>
      if env.writeOk = false then (rot.1, some .Io)
      else
        let w2 := { rot.1 with current := rot.1.current ++ bytes }
        if env.syncOk = false then (w2, some .Io)
        else ({ w2 with size := w2.size + bytes.length }, none)

/-- `WalWriter::append_fast` — as `append_durable` but without the final
durable-sync. -/
def WalWriter.appendFast (w : WalWriter) (env : IOEnv)
    (key value : List Nat) (op : Operation) : WalWriter × Option ClawErr :=
  match serialize_entry key value op with
  | .error e => (w, some e)
  | .ok bytes =>
    let rot := if w.size + bytes.length > WAL_ROTATION_SIZE then w.rotate env else (w, none)
    match rot.2 with
    | some e => (rot.1, some e)
    | none =>
      if env.writeOk = false then (rot.1, some .Io)
      else
        let w2 := { rot.1 with current := rot.1.current ++ bytes }
        ({ w2 with size := w2.size + bytes.length }, none)

/-! ### In-memory index (`HashMap<Vec<u8>, Vec<u8>>`), modelled as an
association list with unique keys maintained by construction. -/

/-- The in-memory index. -/
abbrev Index := List (List Nat × List Nat)

/-- `HashMap::get`. -/
def idxLookup (k : List Nat) : Index → Option (List Nat)
  | [] => none
  | (k', v) :: rest => if k' = k then some v else idxLookup k rest

/-- `HashMap::insert` — overwrite in place or append. -/
def idxInsert (k v : List Nat) : Index → Index
  | [] => [(k, v)]
  | (k', v') :: rest =>
    if k' = k then (k, v) :: rest else (k', v') :: idxInsert k v rest

/-- `HashMap::remove`. -/
def idxRemove (k : List Nat) : Index → Index
  | [] => []
  | (k', v') :: rest => if k' = k then rest else (k', v') :: idxRemove k rest

/-- `DirtyTracker::mark_dirty` — set insertion. -/
def markDirty (k : List Nat) (d : List (List Nat)) : List (List Nat) :=
  if k ∈ d then d else d ++ [k]

/-- `ClawStoreEngine` — in-memory index, WAL writer, dirty set. -/
structure EngineState where
  index : Index
  wal : WalWriter
  dirty : List (List Nat)
deriving DecidableEq, Repr

namespace ClawStoreEngine

/-- `ClawStoreEngine::get` — read from the index only. -/
def get (s : EngineState) (k : List Nat) : Option (List Nat) :=
  idxLookup k s.index

/-- `ClawStoreEngine::put` — WAL append (durable), then index insert, then
dirty marking; on a WAL error the index and dirty set are untouched. -/
def put (s : EngineState) (env : IOEnv) (k v : List Nat) :
    EngineState × Option ClawErr :=
  let a := s.wal.appendDurable env k v .Put
  match a.2 with
  | some err => ({ s with wal := a.1 }, some err)
  | none =>
    ({ index := idxInsert k v s.index, wal := a.1, dirty := markDirty k s.dirty }, none)

/-- `ClawStoreEngine::put_fast` — as `put` but via `append_fast`. -/
def put_fast (s : EngineState) (env : IOEnv) (k v : List Nat) :
    EngineState × Option ClawErr :=
  let a := s.wal.appendFast env k v .Put
  match a.2 with
  | some err => ({ s with wal := a.1 }, some err)
  | none =>
    ({ index := idxInsert k v s.index, wal := a.1, dirty := markDirty k s.dirty }, none)

/-- `ClawStoreEngine::delete` — durable WAL append of a `Delete` record
with empty value, then index removal, then dirty marking. -/
def delete (s : EngineState) (env : IOEnv) (k : List Nat) :
    EngineState × Option ClawErr :=
  let a := s.wal.appendDurable env k [] .Delete
  match a.2 with
  | some err => ({ s with wal := a.1 }, some err)
  | none =>
    ({ index := idxRemove k s.index, wal := a.1, dirty := markDirty k s.dirty }, none)

end ClawStoreEngine

/-! ### Open / recovery (`ClawStoreEngine::open`, `WalReader::recover_entries`) -/

/-- The WAL directory contents as the reader processes them: rotated-out
files then the current file, which is their sequence order (the reader's
lexicographic sort of the fixed-width hex names). -/
def walFilesOf (w : WalWriter) : List (List Nat) := w.files ++ [w.current]

/-- `WalReader::recover_entries` — per-file recovery concatenated in
file order. -/
def recover_entries (files : List (List Nat)) : List WalEntry :=
  (files.map recoverLoop).flatten

/-- One replay step of `ClawStoreEngine::open`: `Put` inserts/overwrites,
`Delete` removes. -/
def applyEntry (m : Index) (e : WalEntry) : Index :=
  match e.operation with
  | .Put => idxInsert e.key e.value m
  | .Delete => idxRemove e.key m

/-- The index `ClawStoreEngine::open` rebuilds from recovered entries. -/
def replayIndex (es : List WalEntry) : Index := es.foldl applyEntry []

/-- The engine state after `ClawStoreEngine::open` on an empty root:
empty index, fresh WAL writer on the empty sequence-zero file. -/
def emptyEngine : EngineState :=
  { index := [], wal := { size := 0, sequence := 0, files := [], current := [] },
    dirty := [] }

/-- A client operation submitted to the engine. -/
inductive EngOp where
  | put (key value : List Nat)
  | del (key : List Nat)
deriving DecidableEq, Repr

/-- Run one operation under fully successful I/O, keeping the state
whether or not the operation was acknowledged. -/
def runOp (s : EngineState) : EngOp → EngineState
  | .put k v => (ClawStoreEngine.put s envOK k v).1
  | .del k => (ClawStoreEngine.delete s envOK k).1

/-- Run a sequence of operations against a freshly opened empty root. -/
def runOps (S : List EngOp) : EngineState := S.foldl runOp emptyEngine

/-! ### Characterizing successful appends and the recovery invariant -/

/-- The writer state after a successful append of `bytes` (rotating first
when the tracked size would exceed the threshold). -/
def walAfterAppend (w : WalWriter) (bytes : List Nat) : WalWriter :=
  if w.size + bytes.length > WAL_ROTATION_SIZE then
    { size := bytes.length, sequence := w.sequence + 1,
      files := w.files ++ [w.current], current := bytes }
  else
    { w with current := w.current ++ bytes, size := w.size + bytes.length }

theorem appendDurable_envOK (w : WalWriter) (k v : List Nat) (op : Operation)
    (hk : ¬ k.length > MAX_KEY_SIZE) (hv : ¬ v.length > MAX_VALUE_SIZE) :
    w.appendDurable envOK k v op = (walAfterAppend w (encodeEntry k v op), none) := by
  unfold WalWriter.appendDurable serialize_entry
  rw [if_neg hk, if_neg hv]
  by_cases hrot : w.size + (encodeEntry k v op).length > WAL_ROTATION_SIZE
  · simp only [WalWriter.rotate, envOK, walAfterAppend, if_pos hrot]
    simp
  · simp only [WalWriter.rotate, envOK, walAfterAppend, if_neg hrot]
    simp

theorem appendDurable_errKey (w : WalWriter) (env : IOEnv) (k v : List Nat)
    (op : Operation) (hk : k.length > MAX_KEY_SIZE) :
    w.appendDurable env k v op =
      (w, some (.OversizedEntry k.length MAX_KEY_SIZE .key)) := by
  unfold WalWriter.appendDurable serialize_entry
  rw [if_pos hk]

theorem appendDurable_errValue (w : WalWriter) (env : IOEnv) (k v : List Nat)
    (op : Operation) (hk : ¬ k.length > MAX_KEY_SIZE)
    (hv : v.length > MAX_VALUE_SIZE) :
    w.appendDurable env k v op =
      (w, some (.OversizedEntry v.length MAX_VALUE_SIZE .value)) := by
  unfold WalWriter.appendDurable serialize_entry
  rw [if_neg hk, if_pos hv]

theorem put_envOK (s : EngineState) (k v : List Nat)
    (hk : ¬ k.length > MAX_KEY_SIZE) (hv : ¬ v.length > MAX_VALUE_SIZE) :
    ClawStoreEngine.put s envOK k v =
      ({ index := idxInsert k v s.index,
         wal := walAfterAppend s.wal (encodeEntry k v .Put),
         dirty := markDirty k s.dirty }, none) := by
  unfold ClawStoreEngine.put
  rw [appendDurable_envOK s.wal k v .Put hk hv]

theorem put_errKey (s : EngineState) (env : IOEnv) (k v : List Nat)
    (hk : k.length > MAX_KEY_SIZE) :
    ClawStoreEngine.put s env k v =
      (s, some (.OversizedEntry k.length MAX_KEY_SIZE .key)) := by
  unfold ClawStoreEngine.put
  rw [appendDurable_errKey s.wal env k v .Put hk]

theorem put_errValue (s : EngineState) (env : IOEnv) (k v : List Nat)
    (hk : ¬ k.length > MAX_KEY_SIZE) (hv : v.length > MAX_VALUE_SIZE) :
    ClawStoreEngine.put s env k v =
      (s, some (.OversizedEntry v.length MAX_VALUE_SIZE .value)) := by
  unfold ClawStoreEngine.put
  rw [appendDurable_errValue s.wal env k v .Put hk hv]

theorem delete_envOK (s : EngineState) (k : List Nat)
    (hk : ¬ k.length > MAX_KEY_SIZE) :
    ClawStoreEngine.delete s envOK k =
      ({ index := idxRemove k s.index,
         wal := walAfterAppend s.wal (encodeEntry k [] .Delete),
         dirty := markDirty k s.dirty }, none) := by
  unfold ClawStoreEngine.delete
  rw [appendDurable_envOK s.wal k [] .Delete hk (by simp [MAX_VALUE_SIZE])]

theorem delete_errKey (s : EngineState) (env : IOEnv) (k : List Nat)
    (hk : k.length > MAX_KEY_SIZE) :
    ClawStoreEngine.delete s env k =
      (s, some (.OversizedEntry k.length MAX_KEY_SIZE .key)) := by
  unfold ClawStoreEngine.delete
  rw [appendDurable_errKey s.wal env k [] .Delete hk]

theorem encodeAll_concat (g : List LogOp) (r : LogOp) :
    encodeAll (g ++ [r]) = encodeAll g ++ r.encode := by
  simp [encodeAll]

theorem encodeAll_single (r : LogOp) : encodeAll [r] = r.encode := by
  simp [encodeAll]

theorem replayIndex_concat (es : List WalEntry) (e : WalEntry) :
    replayIndex (es ++ [e]) = applyEntry (replayIndex es) e := by
  simp [replayIndex, List.foldl_append]

theorem applyEntry_put (m : Index) (k v : List Nat) :
    applyEntry m (LogOp.entry ⟨k, v, .Put⟩) = idxInsert k v m := rfl

theorem applyEntry_del (m : Index) (k v : List Nat) :
    applyEntry m (LogOp.entry ⟨k, v, .Delete⟩) = idxRemove k m := rfl

/-- Recovery invariant tying an engine state to its WAL contents: the WAL
files are, file by file, concatenations of well-formed encoded records,
and replaying all those records rebuilds the in-memory index. -/
def EngineInv (s : EngineState) : Prop :=
  ∃ gs : List (List LogOp),
    (∀ g ∈ gs, ∀ r ∈ g, r.caps) ∧
    walFilesOf s.wal = gs.map encodeAll ∧
    s.index = replayIndex ((gs.flatten).map LogOp.entry)

theorem engineInv_empty : EngineInv emptyEngine := by
  refine ⟨[[]], by simp, ?_, ?_⟩
  · simp [walFilesOf, emptyEngine, encodeAll]
  · simp [emptyEngine, replayIndex]

/-- One acknowledged operation preserves the recovery invariant. -/
theorem engineInv_step (s : EngineState) (hinv : EngineInv s) (r : LogOp)
    (hc : r.caps) :
    EngineInv { index := applyEntry s.index r.entry,
                wal := walAfterAppend s.wal r.encode,
                dirty := markDirty r.key s.dirty } := by
  obtain ⟨gs, hcaps, hfiles, hidx⟩ := hinv
  have hne : gs ≠ [] := by
    intro h
    rw [h] at hfiles
    simp [walFilesOf] at hfiles
  obtain ⟨gs₀, gl, hgs⟩ : ∃ gs₀ gl, gs = gs₀ ++ [gl] :=
    ⟨gs.dropLast, gs.getLast hne, (List.dropLast_append_getLast hne).symm⟩
  subst hgs
  rw [List.map_append] at hfiles
  have hlen : ([s.wal.current] : List (List Nat)).length =
      ([gl].map encodeAll).length := by simp
  have hfiles' : s.wal.files ++ [s.wal.current] = gs₀.map encodeAll ++ [gl].map encodeAll :=
    hfiles
  obtain ⟨hfl, hcur⟩ := List.append_inj' hfiles' hlen
  have hcur' : s.wal.current = encodeAll gl := by simpa using hcur
  unfold walAfterAppend
  split
  · -- rotation: current file is closed, the new record opens a new file
    refine ⟨(gs₀ ++ [gl]) ++ [[r]], ?_, ?_, ?_⟩
    · intro g hg r' hr'
      rcases List.mem_append.mp hg with h | h
      · exact hcaps g h r' hr'
      · simp only [List.mem_singleton] at h
        subst h
        simp only [List.mem_singleton] at hr'
        subst hr'
        exact hc
    · show (s.wal.files ++ [s.wal.current]) ++ [r.encode] = _
      simp [hfl, hcur', encodeAll_single]
    · show applyEntry s.index r.entry = _
      rw [hidx]
      rw [show ((gs₀ ++ [gl]) ++ [[r]]).flatten = (gs₀ ++ [gl]).flatten ++ [r] by simp]
      rw [List.map_append]
      simp only [List.map_cons, List.map_nil]
      rw [replayIndex_concat]
  · -- no rotation: the record extends the current file
    refine ⟨gs₀ ++ [gl ++ [r]], ?_, ?_, ?_⟩
    · intro g hg r' hr'
      rcases List.mem_append.mp hg with h | h
      · exact hcaps g (List.mem_append.mpr (.inl h)) r' hr'
      · simp only [List.mem_singleton] at h
        subst h
        rcases List.mem_append.mp hr' with h' | h'
        · exact hcaps gl (List.mem_append.mpr (.inr (by simp))) r' h'
        · simp only [List.mem_singleton] at h'
          subst h'
          exact hc
    · show s.wal.files ++ [s.wal.current ++ r.encode] = _
      rw [List.map_append, hcur', ← hfl]
      simp [encodeAll_concat]
    · show applyEntry s.index r.entry = _
      rw [hidx]
      rw [show (gs₀ ++ [gl ++ [r]]).flatten = (gs₀ ++ [gl]).flatten ++ [r] by simp]
      rw [List.map_append]
      simp only [List.map_cons, List.map_nil]
      rw [replayIndex_concat]

theorem engineInv_runOp (s : EngineState) (hinv : EngineInv s) (o : EngOp) :
    EngineInv (runOp s o) := by
  cases o with
  | put k v =>
    by_cases hk : k.length > MAX_KEY_SIZE
    · rw [runOp, put_errKey s envOK k v hk]
      exact hinv
    · by_cases hv : v.length > MAX_VALUE_SIZE
      · rw [runOp, put_errValue s envOK k v hk hv]
        exact hinv
      · rw [runOp, put_envOK s k v hk hv]
        exact engineInv_step s hinv ⟨k, v, .Put⟩
          ⟨Nat.not_lt.mp hk, Nat.not_lt.mp hv⟩
  | del k =>
    by_cases hk : k.length > MAX_KEY_SIZE
    · rw [runOp, delete_errKey s envOK k hk]
      exact hinv
    · rw [runOp, delete_envOK s k hk]
      exact engineInv_step s hinv ⟨k, [], .Delete⟩
        ⟨Nat.not_lt.mp hk, Nat.zero_le _⟩

theorem engineInv_runOps (S : List EngOp) : EngineInv (runOps S) := by
  rw [runOps]
  have h : ∀ s, EngineInv s → EngineInv (S.foldl runOp s) := by
    induction S with
    | nil => intro s h; exact h
    | cons o S ih =>
      intro s h
      exact ih _ (engineInv_runOp s h o)
  exact h emptyEngine engineInv_empty

/-- Recovery of an invariant-satisfying WAL rebuilds exactly the
in-memory index. -/
theorem recover_eq_index (s : EngineState) (hinv : EngineInv s) :
    replayIndex (recover_entries (walFilesOf s.wal)) = s.index := by
  obtain ⟨gs, hcaps, hfiles, hidx⟩ := hinv
  rw [hfiles, hidx]
  unfold recover_entries
  congr 1
  rw [List.map_map]
  have h : gs.map (recoverLoop ∘ encodeAll) = gs.map (fun g => g.map LogOp.entry) := by
    apply List.map_congr_left
    intro g hg
    exact recoverLoop_encodeAll g (hcaps g hg)
  rw [h, ← List.map_flatten]

/-! ## Data files (`datafile.rs`) and compaction (`compaction.rs`)

`DataFileReader::scan_all` is modelled on the suffix of the file at the
current offset, carrying the absolute offset for the `DataEntry::offset`
field.  The compactor's output file is the concatenation of the manually
encoded headers plus key and value bytes it writes. -/

/-- `DATA_HEADER_SIZE`. -/
def DATA_HEADER_SIZE : Nat := 24

/-- `FLAG_TOMBSTONE` — bit 0 of the flags byte. -/
def FLAG_TOMBSTONE : Nat := 1

/-- `DataEntry` — an entry read from a data file. -/
structure DataEntry where
  key : List Nat
  value : List Nat
  offset : Nat
  is_tombstone : Bool
deriving DecidableEq, Repr

/-- `DataFileReader::scan_all` — linear scan with forward resync on bad
magic or oversize, skip (but advance past) CRC mismatches, stop on a
truncated trailing entry. -/
def scanLoop (buf : List Nat) (off : Nat) : List DataEntry :=
  if _h : buf.length < DATA_HEADER_SIZE then []
  else if buf.take 4 ≠ MAGIC_ARRAY then
    match findNextMagic (buf.drop 1) with
    | some j => scanLoop ((buf.drop 1).drop j) (off + 1 + j)
    | none => []
  else
    let keyLen := readLE16 (buf.getD 4 0) (buf.getD 5 0)
    let valueLen := readLE32 (buf.getD 6 0) (buf.getD 7 0) (buf.getD 8 0) (buf.getD 9 0)
    let checksum := readLE32 (buf.getD 10 0) (buf.getD 11 0) (buf.getD 12 0) (buf.getD 13 0)
    let flags := buf.getD 14 0
    if keyLen > MAX_KEY_SIZE ∨ valueLen > MAX_VALUE_SIZE then
      match findNextMagic (buf.drop 1) with
      | some j => scanLoop ((buf.drop 1).drop j) (off + 1 + j)
      | none => []
    else
      let entryTotal := DATA_HEADER_SIZE + keyLen + valueLen
      if entryTotal > buf.length then []
      else
        let key := (buf.drop DATA_HEADER_SIZE).take keyLen
        let value := (buf.drop (DATA_HEADER_SIZE + keyLen)).take valueLen
        if crc32c (key ++ value) = checksum then
          { key := key, value := value, offset := off,
            is_tombstone := (flags &&& FLAG_TOMBSTONE) != 0 } ::
            scanLoop (buf.drop entryTotal) (off + entryTotal)
        else
          scanLoop (buf.drop entryTotal) (off + entryTotal)
termination_by buf.length
decreasing_by
  all_goals simp only [List.length_drop, DATA_HEADER_SIZE] at *
  all_goals omega

/-- The bytes of one data-file record as `DataFileWriter::write_internal`
lays them out: magic, key length, value length, CRC32C of
`key ++ value`, the flags byte, zero padding, then key and value. -/
def encodeDataRecordFlags (k v : List Nat) (flags : Nat) : List Nat :=
  MAGIC_ARRAY ++ le16 k.length ++ le32 v.length ++ le32 (crc32c (k ++ v)) ++
    [flags] ++ List.replicate 9 0 ++ k ++ v

/-- The bytes `compact_file` writes for one live entry: magic, key length,
value length, CRC32C of `key ++ value`, flags `0`, zero padding, then key
and value. -/
def encodeDataRecord (k v : List Nat) : List Nat :=
  MAGIC_ARRAY ++ le16 k.length ++ le32 v.length ++ le32 (crc32c (k ++ v)) ++
    List.replicate 10 0 ++ k ++ v

theorem encodeDataRecord_eq_flags (k v : List Nat) :
    encodeDataRecord k v = encodeDataRecordFlags k v 0 := rfl

/-- `HashMap::insert` on the compactor's `latest` map: replace the entry
with this key, or add it. -/
def upsert (e : DataEntry) : List DataEntry → List DataEntry
  | [] => [e]
  | x :: xs => if x.key = e.key then e :: xs else x :: upsert e xs

/-- The compactor's `latest` map after the dedup loop (last write wins). -/
def buildLatest (es : List DataEntry) : List DataEntry :=
  es.foldl (fun acc e => upsert e acc) []

/-- The compactor's live set: latest records that are not tombstones. -/
def liveEntries (es : List DataEntry) : List DataEntry :=
  (buildLatest es).filter (fun e => !e.is_tombstone)

/-- The counts `compact_file` reports. -/
structure CompactionResult where
  original_entries : Nat
  live_entries : Nat
  removed_entries : Nat
deriving DecidableEq, Repr

/-- `compact_file` — scan, deduplicate (last write wins), drop tombstones,
write the live records to the replacement file; report counts. -/
def compact_file (F : List Nat) : List Nat × CompactionResult :=
  let es := scanLoop F 0
  let live := liveEntries es
  ((live.map fun e => encodeDataRecord e.key e.value).flatten,
   { original_entries := es.length, live_entries := live.length,
     removed_entries := es.length - live.length })

/-- The last record for a key in scan order. -/
def lastFor (es : List DataEntry) (k : List Nat) : Option DataEntry :=
  es.reverse.find? (fun e => e.key == k)

/-! ### Scanning a compacted file -/

theorem encodeDataRecord_length (k v : List Nat) :
    (encodeDataRecord k v).length = DATA_HEADER_SIZE + k.length + v.length := by
  simp [encodeDataRecord, le16, le32, MAGIC_ARRAY, DATA_HEADER_SIZE]
  omega

theorem encodeDataRecord_drop24 (k v : List Nat) :
    (encodeDataRecord k v).drop DATA_HEADER_SIZE = k ++ v := rfl

/-- Scanning a buffer that starts with one compactor-written record yields
that record (live, at the running offset) and continues behind it. -/
theorem scanLoop_encodeDataFlags_cons (k v u : List Nat) (flags : Nat) (off : Nat)
    (hk : k.length ≤ MAX_KEY_SIZE) (hv : v.length ≤ MAX_VALUE_SIZE) :
    scanLoop (encodeDataRecordFlags k v flags ++ u) off =
      { key := k, value := v, offset := off,
        is_tombstone := (flags &&& FLAG_TOMBSTONE) != 0 } ::
        scanLoop u (off + (DATA_HEADER_SIZE + k.length + v.length)) := by
  have hk16 : k.length < 65536 := by
    have : k.length ≤ 128 := hk
    omega
  have hv32 : v.length < 4294967296 := by
    have : v.length ≤ 33554432 := hv
    omega
  have hlen : (encodeDataRecordFlags k v flags).length =
      DATA_HEADER_SIZE + k.length + v.length := by
    simp [encodeDataRecordFlags, le16, le32, MAGIC_ARRAY, DATA_HEADER_SIZE]
    omega
  have hbuf : (encodeDataRecordFlags k v flags ++ u).length =
      DATA_HEADER_SIZE + k.length + v.length + u.length := by
    rw [List.length_append, hlen]
  have hget : ∀ i, i < 15 → (encodeDataRecordFlags k v flags ++ u).getD i 0 =
      (encodeDataRecordFlags k v flags).getD i 0 := by
    intro i hi
    apply List.getD_append
    rw [hlen]
    simp only [DATA_HEADER_SIZE]
    omega
  have hkl : readLE16 ((encodeDataRecordFlags k v flags ++ u).getD 4 0)
      ((encodeDataRecordFlags k v flags ++ u).getD 5 0) = k.length := by
    rw [hget 4 (by omega), hget 5 (by omega)]
    have h : readLE16 ((encodeDataRecordFlags k v flags).getD 4 0) ((encodeDataRecordFlags k v flags).getD 5 0) =
        readLE16 (k.length % 256) (k.length / 256 % 256) := rfl
    rw [h, readLE16_le16 _ hk16]
  have hvl : readLE32 ((encodeDataRecordFlags k v flags ++ u).getD 6 0)
      ((encodeDataRecordFlags k v flags ++ u).getD 7 0) ((encodeDataRecordFlags k v flags ++ u).getD 8 0)
      ((encodeDataRecordFlags k v flags ++ u).getD 9 0) = v.length := by
    rw [hget 6 (by omega), hget 7 (by omega), hget 8 (by omega), hget 9 (by omega)]
    have h : readLE32 ((encodeDataRecordFlags k v flags).getD 6 0) ((encodeDataRecordFlags k v flags).getD 7 0)
        ((encodeDataRecordFlags k v flags).getD 8 0) ((encodeDataRecordFlags k v flags).getD 9 0) =
        readLE32 (v.length % 256) (v.length / 256 % 256)
          (v.length / 65536 % 256) (v.length / 16777216 % 256) := rfl
    rw [h, readLE32_le32 _ hv32]
  have hcrc : readLE32 ((encodeDataRecordFlags k v flags ++ u).getD 10 0)
      ((encodeDataRecordFlags k v flags ++ u).getD 11 0) ((encodeDataRecordFlags k v flags ++ u).getD 12 0)
      ((encodeDataRecordFlags k v flags ++ u).getD 13 0) = crc32c (k ++ v) := by
    rw [hget 10 (by omega), hget 11 (by omega), hget 12 (by omega), hget 13 (by omega)]
    have h : readLE32 ((encodeDataRecordFlags k v flags).getD 10 0) ((encodeDataRecordFlags k v flags).getD 11 0)
        ((encodeDataRecordFlags k v flags).getD 12 0) ((encodeDataRecordFlags k v flags).getD 13 0) =
        readLE32 (crc32c (k ++ v) % 256) (crc32c (k ++ v) / 256 % 256)
          (crc32c (k ++ v) / 65536 % 256) (crc32c (k ++ v) / 16777216 % 256) := rfl
    rw [h, readLE32_le32 _ (crc32c_lt _)]
  have hflags : (encodeDataRecordFlags k v flags ++ u).getD 14 0 = flags := by
    rw [hget 14 (by omega)]
    rfl
  have hdrop24 : (encodeDataRecordFlags k v flags ++ u).drop DATA_HEADER_SIZE = (k ++ v) ++ u := by
    rw [List.drop_append_of_le_length (by rw [hlen]; simp only [DATA_HEADER_SIZE]; omega),
      (show (encodeDataRecordFlags k v flags).drop DATA_HEADER_SIZE = k ++ v from rfl)]
  rw [scanLoop]
  rw [dif_neg (by rw [hbuf]; simp only [DATA_HEADER_SIZE]; omega)]
  rw [if_neg (by
    rw [List.take_append_of_le_length (by rw [hlen]; simp only [DATA_HEADER_SIZE]; omega)]
    show ¬ (MAGIC_ARRAY ++ _).take 4 ≠ MAGIC_ARRAY
    rw [List.take_append_of_le_length (by simp [MAGIC_ARRAY])]
    simp [MAGIC_ARRAY])]
  simp only [hkl, hvl, hcrc, hflags]
  rw [if_neg (by
    push_neg
    exact ⟨hk, hv⟩)]
  rw [if_neg (by rw [hbuf]; omega)]
  rw [hdrop24]
  have hkey : ((k ++ v) ++ u).take k.length = k := by
    rw [List.append_assoc, List.take_left]
  have hvalue : (((encodeDataRecordFlags k v flags ++ u)).drop (DATA_HEADER_SIZE + k.length)).take v.length
      = v := by
    rw [← List.drop_drop, hdrop24, List.append_assoc, List.drop_left, List.take_left]
  rw [hkey, hvalue]
  rw [if_pos rfl]
  have hrest : (encodeDataRecordFlags k v flags ++ u).drop (DATA_HEADER_SIZE + k.length + v.length) = u :=
    List.drop_left' hlen
  rw [hrest]

theorem scanLoop_encodeData_cons (k v u : List Nat) (off : Nat)
    (hk : k.length ≤ MAX_KEY_SIZE) (hv : v.length ≤ MAX_VALUE_SIZE) :
    scanLoop (encodeDataRecord k v ++ u) off =
      { key := k, value := v, offset := off, is_tombstone := false } ::
        scanLoop u (off + (DATA_HEADER_SIZE + k.length + v.length)) := by
  rw [encodeDataRecord_eq_flags, scanLoop_encodeDataFlags_cons k v u 0 off hk hv]
  rfl

/-! ### Properties of the dedup map and of scanning the compactor output -/

theorem scanLoop_nil (off : Nat) : scanLoop [] off = [] := by
  rw [scanLoop]
  norm_num [DATA_HEADER_SIZE]

/-- Every entry the scan yields respects the size caps (the scan skips
records whose header exceeds them). -/
theorem scanLoop_caps (n : Nat) : ∀ buf off, buf.length ≤ n →
    ∀ e ∈ scanLoop buf off,
      e.key.length ≤ MAX_KEY_SIZE ∧ e.value.length ≤ MAX_VALUE_SIZE := by
  induction n with
  | zero =>
    intro buf off hle e he
    have : buf = [] := List.length_eq_zero.mp (Nat.le_zero.mp hle)
    rw [this, scanLoop_nil] at he
    simp at he
  | succ n ih =>
    intro buf off hle e he
    rw [scanLoop] at he
    by_cases h1 : buf.length < DATA_HEADER_SIZE
    · rw [dif_pos h1] at he
      simp at he
    · rw [dif_neg h1] at he
      simp only [DATA_HEADER_SIZE] at h1
      simp only [] at he
      by_cases hm : buf.take 4 ≠ MAGIC_ARRAY
      · rw [if_pos hm] at he
        cases hfind : findNextMagic (buf.drop 1) with
        | some j =>
          rw [hfind] at he
          exact ih _ _ (by simp [List.length_drop]; omega) e he
        | none =>
          rw [hfind] at he
          simp at he
      · rw [if_neg hm] at he
        by_cases hcap : readLE16 (buf.getD 4 0) (buf.getD 5 0) > MAX_KEY_SIZE ∨
            readLE32 (buf.getD 6 0) (buf.getD 7 0) (buf.getD 8 0) (buf.getD 9 0) >
              MAX_VALUE_SIZE
        · rw [if_pos hcap] at he
          cases hfind : findNextMagic (buf.drop 1) with
          | some j =>
            rw [hfind] at he
            exact ih _ _ (by simp [List.length_drop]; omega) e he
          | none =>
            rw [hfind] at he
            simp at he
        · rw [if_neg hcap] at he
          push_neg at hcap
          by_cases htr : DATA_HEADER_SIZE + readLE16 (buf.getD 4 0) (buf.getD 5 0) +
              readLE32 (buf.getD 6 0) (buf.getD 7 0) (buf.getD 8 0) (buf.getD 9 0) >
                buf.length
          · rw [if_pos htr] at he
            simp at he
          · rw [if_neg htr] at he
            by_cases hcrc : crc32c
                (List.take (readLE16 (buf.getD 4 0) (buf.getD 5 0))
                  (List.drop DATA_HEADER_SIZE buf) ++
                 List.take
                   (readLE32 (buf.getD 6 0) (buf.getD 7 0) (buf.getD 8 0) (buf.getD 9 0))
                   (List.drop
                     (DATA_HEADER_SIZE + readLE16 (buf.getD 4 0) (buf.getD 5 0)) buf)) =
                readLE32 (buf.getD 10 0) (buf.getD 11 0) (buf.getD 12 0) (buf.getD 13 0)
            · rw [if_pos hcrc] at he
              rcases List.mem_cons.mp he with rfl | hmem
              · constructor
                · simp only [List.length_take]
                  exact le_trans (Nat.min_le_left _ _) hcap.1
                · simp only [List.length_take]
                  exact le_trans (Nat.min_le_left _ _) hcap.2
              · exact ih _ _ (by simp [List.length_drop, DATA_HEADER_SIZE]; omega) e hmem
            · rw [if_neg hcrc] at he
              exact ih _ _ (by simp [List.length_drop, DATA_HEADER_SIZE]; omega) e he

/-- Scanning the concatenation of compactor-written records yields exactly
those records, live, whatever the starting offset. -/
theorem scanLoop_encodeData_proj (recs : List DataEntry) : ∀ off : Nat,
    (∀ e ∈ recs, e.key.length ≤ MAX_KEY_SIZE ∧ e.value.length ≤ MAX_VALUE_SIZE) →
    (scanLoop ((recs.map fun e => encodeDataRecord e.key e.value).flatten) off).map
        (fun e => (e.key, e.value, e.is_tombstone)) =
      recs.map (fun e => (e.key, e.value, false)) := by
  induction recs with
  | nil =>
    intro off _
    simp [scanLoop_nil]
  | cons e recs ih =>
    intro off hcaps
    have he := hcaps e (by simp)
    have : ((e :: recs).map fun e => encodeDataRecord e.key e.value).flatten =
        encodeDataRecord e.key e.value ++
          ((recs.map fun e => encodeDataRecord e.key e.value).flatten) := by
      simp
    rw [this, scanLoop_encodeData_cons e.key e.value _ off he.1 he.2]
    simp only [List.map_cons]
    rw [ih _ (fun x hx => hcaps x (by simp [hx]))]

theorem buildLatest_concat (es : List DataEntry) (e : DataEntry) :
    buildLatest (es ++ [e]) = upsert e (buildLatest es) := by
  simp [buildLatest, List.foldl_append]

theorem lastFor_concat (es : List DataEntry) (e : DataEntry) (k : List Nat) :
    lastFor (es ++ [e]) k = if e.key = k then some e else lastFor es k := by
  unfold lastFor
  rw [List.reverse_append]
  simp only [List.reverse_cons, List.reverse_nil, List.nil_append, List.singleton_append]
  by_cases h : e.key = k
  · simp [List.find?_cons, h]
  · simp [List.find?_cons, h]

theorem find?_upsert (l : List DataEntry) (e : DataEntry) (k : List Nat) :
    (upsert e l).find? (fun x => x.key == k) =
      if e.key = k then some e else l.find? (fun x => x.key == k) := by
  induction l with
  | nil =>
    by_cases h : e.key = k <;> simp [upsert, List.find?_cons, h]
  | cons x xs ih =>
    unfold upsert
    by_cases hx : x.key = e.key
    · rw [if_pos hx]
      by_cases h : e.key = k
      · simp [List.find?_cons, h]
      · have hxk : ¬ x.key = k := by rw [hx]; exact h
        simp [List.find?_cons, h, hxk]
    · rw [if_neg hx]
      by_cases hxk : x.key = k
      · have he : ¬ e.key = k := by
          intro hh
          exact hx (by rw [hxk, hh])
        simp [List.find?_cons, hxk, he]
      · simp [List.find?_cons, hxk, ih]

/-- Looking a key up in the compactor's dedup map finds exactly the last
record for that key in scan order. -/
theorem find?_buildLatest (es : List DataEntry) (k : List Nat) :
    (buildLatest es).find? (fun x => x.key == k) = lastFor es k := by
  induction es using List.reverseRecOn with
  | nil => simp [buildLatest, lastFor]
  | append_singleton es e ih =>
    rw [buildLatest_concat, lastFor_concat, find?_upsert, ih]

theorem mem_upsert (l : List DataEntry) (e x : DataEntry) (hx : x ∈ upsert e l) :
    x = e ∨ x ∈ l := by
  induction l with
  | nil =>
    simp [upsert] at hx
    exact .inl hx
  | cons y ys ih =>
    unfold upsert at hx
    split at hx
    · rcases List.mem_cons.mp hx with rfl | h
      · exact .inl rfl
      · exact .inr (by simp [h])
    · rcases List.mem_cons.mp hx with rfl | h
      · exact .inr (by simp)
      · rcases ih h with h' | h'
        · exact .inl h'
        · exact .inr (by simp [h'])

theorem mem_buildLatest (es : List DataEntry) (x : DataEntry)
    (hx : x ∈ buildLatest es) : x ∈ es := by
  induction es using List.reverseRecOn with
  | nil => simp [buildLatest] at hx
  | append_singleton es e ih =>
    rw [buildLatest_concat] at hx
    rcases mem_upsert _ _ _ hx with rfl | h
    · simp
    · exact List.mem_append.mpr (.inl (ih h))

theorem mem_keys_upsert (l : List DataEntry) (e : DataEntry) (c : List Nat)
    (hc : c ∈ (upsert e l).map (fun x => x.key)) :
    c = e.key ∨ c ∈ l.map (fun x => x.key) := by
  rcases List.mem_map.mp hc with ⟨x, hx, rfl⟩
  rcases mem_upsert l e x hx with rfl | h
  · exact .inl rfl
  · exact .inr (List.mem_map.mpr ⟨x, h, rfl⟩)

theorem nodup_keys_upsert (l : List DataEntry) (e : DataEntry)
    (h : (l.map (fun x => x.key)).Nodup) :
    ((upsert e l).map (fun x => x.key)).Nodup := by
  induction l with
  | nil => simp [upsert]
  | cons x xs ih =>
    simp only [List.map_cons, List.nodup_cons] at h
    unfold upsert
    split
    · rename_i hx
      simp only [List.map_cons, List.nodup_cons]
      exact ⟨by rw [← hx]; exact h.1, h.2⟩
    · rename_i hx
      simp only [List.map_cons, List.nodup_cons]
      refine ⟨?_, ih h.2⟩
      intro hmem
      rcases mem_keys_upsert xs e x.key hmem with h' | h'
      · exact hx h'
      · exact h.1 h'

/-- The dedup map has pairwise distinct keys. -/
theorem nodup_keys_buildLatest (es : List DataEntry) :
    ((buildLatest es).map (fun x => x.key)).Nodup := by
  induction es using List.reverseRecOn with
  | nil => simp [buildLatest]
  | append_singleton es e ih =>
    rw [buildLatest_concat]
    exact nodup_keys_upsert _ _ ih

theorem find?_eq_of_mem_nodup (l : List DataEntry)
    (h : (l.map (fun x => x.key)).Nodup) (e : DataEntry) (he : e ∈ l) :
    l.find? (fun x => x.key == e.key) = some e := by
  induction l with
  | nil => simp at he
  | cons x xs ih =>
    simp only [List.map_cons, List.nodup_cons] at h
    rcases List.mem_cons.mp he with rfl | hmem
    · simp [List.find?_cons]
    · have hx : ¬ x.key = e.key := by
        intro hh
        exact h.1 (by rw [hh]; exact List.mem_map.mpr ⟨e, hmem, rfl⟩)
      simp [List.find?_cons, hx, ih h.2 hmem]

/-- Membership in the live set with a given key characterizes "the last
record for that key is live". -/
theorem mem_live_iff (es : List DataEntry) (k : List Nat) (e : DataEntry) :
    (e ∈ liveEntries es ∧ e.key = k) ↔
      (lastFor es k = some e ∧ e.is_tombstone = false) := by
  constructor
  · rintro ⟨hmem, rfl⟩
    rcases List.mem_filter.mp hmem with ⟨hb, htomb⟩
    refine ⟨?_, by simpa using htomb⟩
    rw [← find?_buildLatest]
    exact find?_eq_of_mem_nodup _ (nodup_keys_buildLatest es) e hb
  · rintro ⟨hlast, htomb⟩
    have hfind : (buildLatest es).find? (fun x => x.key == k) = some e := by
      rw [find?_buildLatest]; exact hlast
    have hb : e ∈ buildLatest es := List.mem_of_find?_eq_some hfind
    have hk : e.key = k := by
      have := List.find?_some hfind
      simpa using this
    exact ⟨List.mem_filter.mpr ⟨hb, by simp [htomb]⟩, hk⟩

theorem nodup_keys_live (es : List DataEntry) :
    ((liveEntries es).map (fun x => x.key)).Nodup := by
  have hsub : List.Sublist ((liveEntries es).map (fun x => x.key))
      ((buildLatest es).map (fun x => x.key)) :=
    (List.filter_sublist _).map _
  exact (nodup_keys_buildLatest es).sublist hsub

/-! ## WAL file naming (`wal.rs`: `WalWriter::new`, `find_max_sequence`)
and configuration (`config.rs`) -/

/-- Value of one hexadecimal digit character, upper- or lowercase. -/
def hexDigitVal (c : Char) : Option Nat :=
  if '0' ≤ c ∧ c ≤ '9' then some (c.toNat - '0'.toNat)
  else if 'a' ≤ c ∧ c ≤ 'f' then some (c.toNat - 'a'.toNat + 10)
  else if 'A' ≤ c ∧ c ≤ 'F' then some (c.toNat - 'A'.toNat + 10)
  else none

/-- Accumulate hexadecimal digits left to right. -/
def parseHexAux (acc : Nat) : List Char → Option Nat
  | [] => some acc
  | c :: cs =>
    match hexDigitVal c with
    | some d => parseHexAux (acc * 16 + d) cs
    | none => none

/-- Digits-only part of `u64::from_str_radix(s, 16)`: non-empty, all hex
digits, result below `2^64`. -/
def parseHexU64 (s : List Char) : Option Nat :=
  if s = [] then none
  else
    match parseHexAux 0 s with
    | some n => if n < 18446744073709551616 then some n else none
    | none => none

/-- `u64::from_str_radix(s, 16)` — optional sign, then hex digits; a
negative sign only admits zero. -/
def from_str_radix16 : List Char → Option Nat
  | '+' :: rest => parseHexU64 rest
  | '-' :: rest =>
    match parseHexU64 rest with
    | some 0 => some 0
    | _ => none
  | s => parseHexU64 s

/-- The `name.starts_with("wal-") && name.ends_with(".claw")` filter. -/
def matchesWal (name : List Char) : Bool :=
  name.take 4 == "wal-".toList && name.drop (name.length - 5) == ".claw".toList

/-- The parsed sequence of a directory entry, when it is a WAL file name
with parseable hex middle (`&name[4..name.len() - 5]`). -/
def parseWalSeq (name : List Char) : Option Nat :=
  if matchesWal name then from_str_radix16 ((name.drop 4).take (name.length - 9))
  else none

/-- `WalWriter::find_max_sequence` — fold of `max` over the parsed
sequences, starting from `0`. -/
def find_max_sequence (names : List (List Char)) : Nat :=
  names.foldl
    (fun maxSeq name =>
      match parseWalSeq name with
      | some seq => max maxSeq seq
      | none => maxSeq)
    0

/-- One lowercase hexadecimal digit character. -/
def hexDigitChar (n : Nat) : Char :=
  if n < 10 then Char.ofNat (48 + n) else Char.ofNat (97 + (n - 10))

/-- `format!("{:016x}", seq)` — sixteen lowercase hex digits, most
significant first. -/
def hex16 (n : Nat) : List Char :=
  ((List.range 16).reverse).map (fun i => hexDigitChar (n / 16 ^ i % 16))

/-- `format!("wal-{:016x}.claw", seq)`. -/
def walFileName (seq : Nat) : List Char :=
  "wal-".toList ++ hex16 seq ++ ".claw".toList

/-- The file name `WalWriter::new` opens in create+append mode: the
scanned maximum sequence itself (not its successor). -/
def walWriterNewFileName (names : List (List Char)) : List Char :=
  walFileName (find_max_sequence names)

theorem find_max_sequence_spec_aux (names : List (List Char)) :
    ∀ acc : Nat,
      names.foldl
        (fun maxSeq name =>
          match parseWalSeq name with
          | some seq => max maxSeq seq
          | none => maxSeq) acc =
      (names.filterMap parseWalSeq).foldl max acc := by
  induction names with
  | nil => intro acc; rfl
  | cons name rest ih =>
    intro acc
    cases h : parseWalSeq name with
    | some seq => simp [List.foldl_cons, List.filterMap_cons, h, ih]
    | none => simp [List.foldl_cons, List.filterMap_cons, h, ih]

/-- `find_max_sequence` computes the maximum of all parsed sequences. -/
theorem find_max_sequence_spec (names : List (List Char)) :
    find_max_sequence names = (names.filterMap parseWalSeq).foldl max 0 :=
  find_max_sequence_spec_aux names 0

/-! ### Configuration (`config.rs`) — the fields the claims inspect.
`compaction_trigger_ratio` is an `f64` in the source and is not carried
here (no claim under verification depends on it). -/

/-- `Config` — engine configuration record. -/
structure Config where
  max_snapshot_memory_bytes : Nat
  max_snapshot_ttl_secs : Nat
  wal_rotation_size_bytes : Nat
  trickle_cadence_millis : Nat
  max_key_size : Nat
  max_value_size : Nat
deriving DecidableEq, Repr

/-- A configuration asking for 1 MiB WAL rotation (the smallest value the
source's `Config::validate` accepts for this field). -/
def cfgOneMiB : Config :=
  { max_snapshot_memory_bytes := 1073741824
    max_snapshot_ttl_secs := 3600
    wal_rotation_size_bytes := 1048576
    trickle_cadence_millis := 12000
    max_key_size := 128
    max_value_size := 33554432 }

/-! ## Claim theorems -/

theorem mem_markDirty (k : List Nat) (d : List (List Nat)) : k ∈ markDirty k d := by
  unfold markDirty
  split
  · assumption
  · simp

theorem idxLookup_insert (k v : List Nat) (m : Index) :
    idxLookup k (idxInsert k v m) = some v := by
  induction m with
  | nil => simp [idxInsert, idxLookup]
  | cons p rest ih =>
    unfold idxInsert
    split
    · simp [idxLookup]
    · rename_i h
      simp [idxLookup, h, ih]

theorem put_cases (s : EngineState) (env : IOEnv) (k v : List Nat) :
    (∃ w', s.wal.appendDurable env k v .Put = (w', none) ∧
      ClawStoreEngine.put s env k v =
        ({ index := idxInsert k v s.index, wal := w', dirty := markDirty k s.dirty }, none)) ∨
    (∃ w' e, s.wal.appendDurable env k v .Put = (w', some e) ∧
      ClawStoreEngine.put s env k v = ({ s with wal := w' }, some e)) := by
  cases h2 : (s.wal.appendDurable env k v .Put).2 with
  | none =>
    refine .inl ⟨(s.wal.appendDurable env k v .Put).1, ?_, ?_⟩
    · have h : s.wal.appendDurable env k v .Put =
          ((s.wal.appendDurable env k v .Put).1, (s.wal.appendDurable env k v .Put).2) := rfl
      rw [h2] at h
      exact h
    · unfold ClawStoreEngine.put
      simp only []
      rw [h2]
  | some e =>
    refine .inr ⟨(s.wal.appendDurable env k v .Put).1, e, ?_, ?_⟩
    · have h : s.wal.appendDurable env k v .Put =
          ((s.wal.appendDurable env k v .Put).1, (s.wal.appendDurable env k v .Put).2) := rfl
      rw [h2] at h
      exact h
    · unfold ClawStoreEngine.put
      simp only []
      rw [h2]

theorem put_fast_cases (s : EngineState) (env : IOEnv) (k v : List Nat) :
    (∃ w', s.wal.appendFast env k v .Put = (w', none) ∧
      ClawStoreEngine.put_fast s env k v =
        ({ index := idxInsert k v s.index, wal := w', dirty := markDirty k s.dirty }, none)) ∨
    (∃ w' e, s.wal.appendFast env k v .Put = (w', some e) ∧
      ClawStoreEngine.put_fast s env k v = ({ s with wal := w' }, some e)) := by
  cases h2 : (s.wal.appendFast env k v .Put).2 with
  | none =>
    refine .inl ⟨(s.wal.appendFast env k v .Put).1, ?_, ?_⟩
    · have h : s.wal.appendFast env k v .Put =
          ((s.wal.appendFast env k v .Put).1, (s.wal.appendFast env k v .Put).2) := rfl
      rw [h2] at h
      exact h
    · unfold ClawStoreEngine.put_fast
      simp only []
      rw [h2]
  | some e =>
    refine .inr ⟨(s.wal.appendFast env k v .Put).1, e, ?_, ?_⟩
    · have h : s.wal.appendFast env k v .Put =
          ((s.wal.appendFast env k v .Put).1, (s.wal.appendFast env k v .Put).2) := rfl
      rw [h2] at h
      exact h
    · unfold ClawStoreEngine.put_fast
      simp only []
      rw [h2]

theorem delete_cases (s : EngineState) (env : IOEnv) (k : List Nat) :
    (∃ w', s.wal.appendDurable env k [] .Delete = (w', none) ∧
      ClawStoreEngine.delete s env k =
        ({ index := idxRemove k s.index, wal := w', dirty := markDirty k s.dirty }, none)) ∨
    (∃ w' e, s.wal.appendDurable env k [] .Delete = (w', some e) ∧
      ClawStoreEngine.delete s env k = ({ s with wal := w' }, some e)) := by
  cases h2 : (s.wal.appendDurable env k [] .Delete).2 with
  | none =>
    refine .inl ⟨(s.wal.appendDurable env k [] .Delete).1, ?_, ?_⟩
    · have h : s.wal.appendDurable env k [] .Delete =
          ((s.wal.appendDurable env k [] .Delete).1, (s.wal.appendDurable env k [] .Delete).2) := rfl
      rw [h2] at h
      exact h
    · unfold ClawStoreEngine.delete
      simp only []
      rw [h2]
  | some e =>
    refine .inr ⟨(s.wal.appendDurable env k [] .Delete).1, e, ?_, ?_⟩
    · have h : s.wal.appendDurable env k [] .Delete =
          ((s.wal.appendDurable env k [] .Delete).1, (s.wal.appendDurable env k [] .Delete).2) := rfl
      rw [h2] at h
      exact h
    · unfold ClawStoreEngine.delete
      simp only []
      rw [h2]

/-- C1: for every sequence of acknowledged durable operations applied to
an engine opened on an empty root, replaying all recovered WAL entries in
file-then-offset order (`Put` as insert/overwrite, `Delete` as remove)
into a fresh map yields a key-to-value map equal to the in-memory index
at the end of the sequence. -/
theorem claim_C1_reopen_equals_index (S : List EngOp) (k : List Nat) :
    idxLookup k (replayIndex (recover_entries (walFilesOf (runOps S).wal))) =
      idxLookup k (runOps S).index := by
  rw [recover_eq_index (runOps S) (engineInv_runOps S)]

/-- C2: `put`, `put_fast` and `delete` return ok exactly when the WAL
append succeeded, in which case the index update and the dirty marking
have been performed; when the WAL append fails, the error is propagated
and the index (and dirty set) are completely untouched. -/
theorem claim_C2_write_ordering (s : EngineState) (env : IOEnv) (k v : List Nat) :
    (((ClawStoreEngine.put s env k v).2 = none ↔
        (s.wal.appendDurable env k v .Put).2 = none) ∧
      ((ClawStoreEngine.put s env k v).2 = none →
        (ClawStoreEngine.put s env k v).1.index = idxInsert k v s.index ∧
        k ∈ (ClawStoreEngine.put s env k v).1.dirty) ∧
      (∀ e, (s.wal.appendDurable env k v .Put).2 = some e →
        (ClawStoreEngine.put s env k v).2 = some e ∧
        (ClawStoreEngine.put s env k v).1.index = s.index ∧
        (ClawStoreEngine.put s env k v).1.dirty = s.dirty)) ∧
    (((ClawStoreEngine.put_fast s env k v).2 = none ↔
        (s.wal.appendFast env k v .Put).2 = none) ∧
      ((ClawStoreEngine.put_fast s env k v).2 = none →
        (ClawStoreEngine.put_fast s env k v).1.index = idxInsert k v s.index ∧
        k ∈ (ClawStoreEngine.put_fast s env k v).1.dirty) ∧
      (∀ e, (s.wal.appendFast env k v .Put).2 = some e →
        (ClawStoreEngine.put_fast s env k v).2 = some e ∧
        (ClawStoreEngine.put_fast s env k v).1.index = s.index ∧
        (ClawStoreEngine.put_fast s env k v).1.dirty = s.dirty)) ∧
    (((ClawStoreEngine.delete s env k).2 = none ↔
        (s.wal.appendDurable env k [] .Delete).2 = none) ∧
      ((ClawStoreEngine.delete s env k).2 = none →
        (ClawStoreEngine.delete s env k).1.index = idxRemove k s.index ∧
        k ∈ (ClawStoreEngine.delete s env k).1.dirty) ∧
      (∀ e, (s.wal.appendDurable env k [] .Delete).2 = some e →
        (ClawStoreEngine.delete s env k).2 = some e ∧
        (ClawStoreEngine.delete s env k).1.index = s.index ∧
        (ClawStoreEngine.delete s env k).1.dirty = s.dirty)) := by
  refine ⟨?_, ?_, ?_⟩
  · rcases put_cases s env k v with ⟨w', ha, hp⟩ | ⟨w', e, ha, hp⟩
    · refine ⟨by simp [hp, ha], fun _ => ⟨by simp [hp], by simp [hp, mem_markDirty]⟩, ?_⟩
      intro e he
      rw [ha] at he
      simp at he
    · refine ⟨by simp [hp, ha], by simp [hp], ?_⟩
      intro e' he
      rw [ha] at he
      simp at he
      subst he
      simp [hp]
  · rcases put_fast_cases s env k v with ⟨w', ha, hp⟩ | ⟨w', e, ha, hp⟩
    · refine ⟨by simp [hp, ha], fun _ => ⟨by simp [hp], by simp [hp, mem_markDirty]⟩, ?_⟩
      intro e he
      rw [ha] at he
      simp at he
    · refine ⟨by simp [hp, ha], by simp [hp], ?_⟩
      intro e' he
      rw [ha] at he
      simp at he
      subst he
      simp [hp]
  · rcases delete_cases s env k with ⟨w', ha, hp⟩ | ⟨w', e, ha, hp⟩
    · refine ⟨by simp [hp, ha], fun _ => ⟨by simp [hp], by simp [hp, mem_markDirty]⟩, ?_⟩
      intro e he
      rw [ha] at he
      simp at he
    · refine ⟨by simp [hp, ha], by simp [hp], ?_⟩
      intro e' he
      rw [ha] at he
      simp at he
      subst he
      simp [hp]

/-- Closed instance of C2: a put that succeeds updates the index and marks
the key dirty, and a put whose WAL append fails (oversized key) leaves the
index untouched and propagates the error. -/
theorem claim_C2_write_ordering_witness :
    ((ClawStoreEngine.put emptyEngine envOK [1] [2]).2 = none →
      (ClawStoreEngine.put emptyEngine envOK [1] [2]).1.index =
        idxInsert [1] [2] emptyEngine.index ∧
      [1] ∈ (ClawStoreEngine.put emptyEngine envOK [1] [2]).1.dirty) ∧
    ((ClawStoreEngine.put emptyEngine envOK [1] [2]).2 = none) ∧
    ((emptyEngine.wal.appendDurable ⟨true, true, false, true⟩ [1] [2] .Put).2 =
        some .Io →
      (ClawStoreEngine.put emptyEngine ⟨true, true, false, true⟩ [1] [2]).2 = some .Io ∧
      (ClawStoreEngine.put emptyEngine ⟨true, true, false, true⟩ [1] [2]).1.index =
        emptyEngine.index) ∧
    (emptyEngine.wal.appendDurable ⟨true, true, false, true⟩ [1] [2] .Put).2 =
      some .Io := by
  refine ⟨(claim_C2_write_ordering emptyEngine envOK [1] [2]).1.2.1, by decide, ?_, by decide⟩
  intro h
  exact ⟨((claim_C2_write_ordering emptyEngine ⟨true, true, false, true⟩ [1] [2]).1.2.2 .Io h).1,
    ((claim_C2_write_ordering emptyEngine ⟨true, true, false, true⟩ [1] [2]).1.2.2 .Io h).2.1⟩

/-- C6: deserializing the output of `serialize_entry` on any key and value
within the caps and either kind succeeds and returns exactly that key,
value and kind, with header magic `CLAW`. -/
theorem claim_C6_roundtrip (k v : List Nat) (op : Operation)
    (hk : k.length ≤ MAX_KEY_SIZE) (hv : v.length ≤ MAX_VALUE_SIZE) :
    ∃ bytes, serialize_entry k v op = .ok bytes ∧
      ∃ e, deserialize_entry bytes = .ok e ∧
        e.key = k ∧ e.value = v ∧ e.operation = op ∧ e.header.magic = MAGIC_ARRAY := by
  refine ⟨encodeEntry k v op, ?_, expectedEntry k v op,
    deserialize_encodeEntry k v op hk hv, rfl, rfl, rfl, rfl⟩
  unfold serialize_entry
  rw [if_neg (by omega), if_neg (by omega)]

/-- Closed instance of C6 at a concrete key, value and both kinds. -/
theorem claim_C6_roundtrip_witness :
    ([107] : List Nat).length ≤ MAX_KEY_SIZE ∧
    ([118, 97] : List Nat).length ≤ MAX_VALUE_SIZE ∧
    (∃ bytes, serialize_entry [107] [118, 97] .Put = .ok bytes ∧
      ∃ e, deserialize_entry bytes = .ok e ∧
        e.key = [107] ∧ e.value = [118, 97] ∧ e.operation = .Put ∧
        e.header.magic = MAGIC_ARRAY) ∧
    (∃ bytes, serialize_entry [107] [] .Delete = .ok bytes ∧
      ∃ e, deserialize_entry bytes = .ok e ∧
        e.key = [107] ∧ e.value = [] ∧ e.operation = .Delete ∧
        e.header.magic = MAGIC_ARRAY) :=
  ⟨by decide, by decide,
    claim_C6_roundtrip [107] [118, 97] .Put (by decide) (by decide),
    claim_C6_roundtrip [107] [] .Delete (by decide) (by decide)⟩

/-- C8: encoding boundary behaviour — a key of length exactly `MAX_KEY_SIZE`
is accepted (also with a zero-length value, for both kinds); a key one byte
longer is rejected with `OversizedEntry` naming the key, whatever the value;
a value of length exactly `MAX_VALUE_SIZE` is accepted; one byte longer is
rejected with `OversizedEntry` naming the value. -/
theorem claim_C8_boundaries (k kbig vmax vbig : List Nat)
    (hk : k.length = MAX_KEY_SIZE) (hkbig : kbig.length = MAX_KEY_SIZE + 1)
    (hvmax : vmax.length = MAX_VALUE_SIZE) (hvbig : vbig.length = MAX_VALUE_SIZE + 1) :
    (∀ op, ∃ bs, serialize_entry k [] op = .ok bs) ∧
    (∀ op v, serialize_entry kbig v op =
      .error (.OversizedEntry (MAX_KEY_SIZE + 1) MAX_KEY_SIZE .key)) ∧
    (∀ op, ∃ bs, serialize_entry k vmax op = .ok bs) ∧
    (∀ op, serialize_entry k vbig op =
      .error (.OversizedEntry (MAX_VALUE_SIZE + 1) MAX_VALUE_SIZE .value)) := by
  refine ⟨?_, ?_, ?_, ?_⟩
  · intro op
    refine ⟨encodeEntry k [] op, ?_⟩
    unfold serialize_entry
    rw [if_neg (by omega), if_neg (by simp [MAX_VALUE_SIZE])]
  · intro op v
    unfold serialize_entry
    rw [if_pos (by omega), hkbig]
  · intro op
    refine ⟨encodeEntry k vmax op, ?_⟩
    unfold serialize_entry
    rw [if_neg (by omega), if_neg (by omega)]
  · intro op
    unfold serialize_entry
    rw [if_neg (by omega), if_pos (by omega), hvbig]

/-- Closed instance of C8 at the exact boundary sizes. -/
theorem claim_C8_boundaries_witness :
    (List.replicate 128 (0 : Nat)).length = MAX_KEY_SIZE ∧
    (List.replicate 129 (0 : Nat)).length = MAX_KEY_SIZE + 1 ∧
    (List.replicate 33554432 (0 : Nat)).length = MAX_VALUE_SIZE ∧
    (List.replicate 33554433 (0 : Nat)).length = MAX_VALUE_SIZE + 1 ∧
    ((∀ op, ∃ bs, serialize_entry (List.replicate 128 0) [] op = .ok bs) ∧
     (∀ op v, serialize_entry (List.replicate 129 0) v op =
       .error (.OversizedEntry (MAX_KEY_SIZE + 1) MAX_KEY_SIZE .key)) ∧
     (∀ op, ∃ bs, serialize_entry (List.replicate 128 0)
       (List.replicate 33554432 0) op = .ok bs) ∧
     (∀ op, serialize_entry (List.replicate 128 0) (List.replicate 33554433 0) op =
       .error (.OversizedEntry (MAX_VALUE_SIZE + 1) MAX_VALUE_SIZE .value))) :=
  ⟨by simp only [List.length_replicate, MAX_KEY_SIZE], by simp only [List.length_replicate, MAX_KEY_SIZE], by simp only [List.length_replicate, MAX_VALUE_SIZE],
    by simp only [List.length_replicate, MAX_VALUE_SIZE],
    claim_C8_boundaries (List.replicate 128 0) (List.replicate 129 0)
      (List.replicate 33554432 0) (List.replicate 33554433 0)
      (by simp only [List.length_replicate, MAX_KEY_SIZE]) (by simp only [List.length_replicate, MAX_KEY_SIZE])
      (by simp only [List.length_replicate, MAX_VALUE_SIZE]) (by simp only [List.length_replicate, MAX_VALUE_SIZE])⟩

/-- C9: no minimum key length is enforced on the write path — the empty
key serializes, round-trips back as the empty key, an engine `put` with
the empty key succeeds under successful I/O, and `get` with the empty key
then returns the value. -/
theorem claim_C9_empty_key (v : List Nat) (hv : v.length ≤ MAX_VALUE_SIZE)
    (s : EngineState) :
    (∃ bs, serialize_entry [] v .Put = .ok bs ∧
      ∃ e, deserialize_entry bs = .ok e ∧ e.key = [] ∧ e.value = v) ∧
    (ClawStoreEngine.put s envOK [] v).2 = none ∧
    ClawStoreEngine.get (ClawStoreEngine.put s envOK [] v).1 [] = some v := by
  have hk : ¬ ([] : List Nat).length > MAX_KEY_SIZE := by simp [MAX_KEY_SIZE]
  have hv' : ¬ v.length > MAX_VALUE_SIZE := by omega
  refine ⟨⟨encodeEntry [] v .Put, ?_, expectedEntry [] v .Put,
    deserialize_encodeEntry [] v .Put (by simp [MAX_KEY_SIZE]) hv, rfl, rfl⟩, ?_, ?_⟩
  · unfold serialize_entry
    rw [if_neg hk, if_neg hv']
  · rw [put_envOK s [] v hk hv']
  · rw [put_envOK s [] v hk hv']
    unfold ClawStoreEngine.get
    exact idxLookup_insert [] v s.index

/-- Closed instance of C9 on the empty engine. -/
theorem claim_C9_empty_key_witness :
    ([9] : List Nat).length ≤ MAX_VALUE_SIZE ∧
    ((∃ bs, serialize_entry [] [9] .Put = .ok bs ∧
      ∃ e, deserialize_entry bs = .ok e ∧ e.key = [] ∧ e.value = [9]) ∧
     (ClawStoreEngine.put emptyEngine envOK [] [9]).2 = none ∧
     ClawStoreEngine.get (ClawStoreEngine.put emptyEngine envOK [] [9]).1 [] =
       some [9]) :=
  ⟨by decide, claim_C9_empty_key [9] (by decide) emptyEngine⟩

/-- C3 as stated fails on the code: `WalWriter::new` opens the file named
with the scanned maximum sequence `S` itself, so on an empty WAL
directory the first file is `wal-0000000000000000.claw`, not
`wal-0000000000000001.claw`. -/
theorem claim_C3_counterexample :
    walWriterNewFileName [] = "wal-0000000000000000.claw".toList ∧
    walWriterNewFileName [] ≠ "wal-0000000000000001.claw".toList := by
  constructor
  · decide
  · decide

/-- C3 amended: on construction the WAL directory is scanned for
`wal-*.claw` names whose middle parses as hex, the maximum parsed
sequence is taken as `S` (0 when none parse), and the file opened in
create+append mode is `wal-<fmt(S)>.claw` — resuming the highest existing
file; in particular, when no prior WAL files exist the first file created
is `wal-0000000000000000.claw`. -/
theorem claim_C3_amended (names : List (List Char)) :
    walWriterNewFileName names =
      "wal-".toList ++ hex16 ((names.filterMap parseWalSeq).foldl max 0) ++
        ".claw".toList ∧
    walWriterNewFileName [] = "wal-0000000000000000.claw".toList := by
  constructor
  · unfold walWriterNewFileName walFileName
    rw [find_max_sequence_spec]
  · decide

/-- C7: the rotation decision in `append_durable`/`append_fast` compares
against the compiled-in 100 MiB constant and ignores the configured
`wal_rotation_size`: with a validated 1 MiB configuration and a tracked
size of 2 MiB, an append triggers no rotation (sequence and closed-file
list unchanged) even though `size + len` exceeds the configured
threshold; rotation does fire at the compiled-in constant. -/
theorem claim_C7_rotation_ignores_config :
    cfgOneMiB.wal_rotation_size_bytes = 1048576 ∧
    (({ size := 2097152, sequence := 5, files := [], current := [] } :
        WalWriter).size + (encodeEntry [107] [118] .Put).length >
      cfgOneMiB.wal_rotation_size_bytes) ∧
    (({ size := 2097152, sequence := 5, files := [], current := [] } :
        WalWriter).appendDurable envOK [107] [118] .Put).2 = none ∧
    (({ size := 2097152, sequence := 5, files := [], current := [] } :
        WalWriter).appendDurable envOK [107] [118] .Put).1.sequence = 5 ∧
    (({ size := 2097152, sequence := 5, files := [], current := [] } :
        WalWriter).appendDurable envOK [107] [118] .Put).1.files = [] ∧
    (({ size := 2097152, sequence := 5, files := [], current := [] } :
        WalWriter).appendFast envOK [107] [118] .Put).1.sequence = 5 ∧
    (({ size := 104857600, sequence := 5, files := [], current := [] } :
        WalWriter).appendDurable envOK [107] [118] .Put).1.sequence = 6 := by
  refine ⟨rfl, by decide, by decide, by decide, by decide, by decide, by decide⟩

/-- A WAL-entry payload extended by trailing bytes the declared key and
value lengths do not cover. -/
def paddedPayload (k v : List Nat) (op : Operation) (t : List Nat) : List Nat :=
  entryPayload k v op ++ t

/-- A buffer whose header declares (and checksums) the padded payload:
well-formed for `deserialize_entry`, yet longer than the key and value
demand. -/
def paddedEntry (k v : List Nat) (op : Operation) (t : List Nat) : List Nat :=
  (ChunkHeader.mk' (paddedPayload k v op t).length
    (crc32c (paddedPayload k v op t)) op).toBytes ++ paddedPayload k v op t

/-- The entry `deserialize_entry` yields from a padded buffer. -/
def paddedExpected (k v : List Nat) (op : Operation) (t : List Nat) : WalEntry :=
  { header := ChunkHeader.mk' (paddedPayload k v op t).length
      (crc32c (paddedPayload k v op t)) op
    key := k, value := v, operation := op }

theorem deserialize_paddedEntry (k v t : List Nat) (op : Operation)
    (hk16 : k.length < 65536)
    (hL : (paddedPayload k v op t).length < 4294967296) :
    deserialize_entry (paddedEntry k v op t) = .ok (paddedExpected k v op t) := by
  have hplen : (paddedPayload k v op t).length = 8 + k.length + v.length + t.length := by
    rw [paddedPayload, List.length_append, entryPayload_length]
  have hv32 : v.length < 4294967296 := by omega
  have hC : crc32c (paddedPayload k v op t) < 4294967296 := crc32c_lt _
  have hlen : (paddedEntry k v op t).length =
      HEADER_SIZE + (paddedPayload k v op t).length := by
    rw [paddedEntry, List.length_append, toBytes_length]
  have hget : ∀ i, i < 8 → (paddedPayload k v op t).getD i 0 =
      (entryPayload k v op).getD i 0 := by
    intro i hi
    apply List.getD_append
    rw [entryPayload_length]
    omega
  unfold deserialize_entry
  rw [if_neg (by omega)]
  rw [show (paddedEntry k v op t).take HEADER_SIZE =
      (ChunkHeader.mk' (paddedPayload k v op t).length
        (crc32c (paddedPayload k v op t)) op).toBytes from
    List.take_left' (toBytes_length _ _ _)]
  rw [fromBytes_toBytes _ _ _ hL hC]
  rw [if_neg (by simp [ChunkHeader.mk'])]
  rw [if_neg (by simp [ChunkHeader.mk']; omega)]
  rw [show (paddedEntry k v op t).drop HEADER_SIZE = paddedPayload k v op t from
    List.drop_left' (toBytes_length _ _ _)]
  simp only [ChunkHeader.mk', List.take_length]
  rw [hget 0 (by omega), hget 1 (by omega), hget 2 (by omega), hget 3 (by omega),
    hget 4 (by omega), hget 5 (by omega), hget 6 (by omega)]
  rw [entryPayload_keyLen k v op hk16, entryPayload_valLen k v op hv32,
    entryPayload_opByte]
  rw [if_neg (by simp), if_neg (by omega), if_pos (opByte_cases op),
    if_neg (by omega)]
  have hkey : ((paddedPayload k v op t).drop 8).take k.length = k := by
    rw [paddedPayload, List.drop_append_of_le_length (by rw [entryPayload_length]; omega),
      entryPayload_drop8, List.append_assoc, List.take_left]
  have hvalue : ((paddedPayload k v op t).drop (8 + k.length)).take v.length = v := by
    rw [← List.drop_drop, paddedPayload,
      List.drop_append_of_le_length (by rw [entryPayload_length]; omega),
      entryPayload_drop8, List.append_assoc, List.drop_left, List.take_left]
  rw [hkey, hvalue, opByte_if]
  rfl

/-- C10: `deserialize_entry` accepts a buffer whose declared payload length
covers bytes beyond the declared key and value, silently discarding them,
so buffers with different trailing residue are distinct yet decode to the
same key, value and kind. -/
theorem claim_C10_trailing_bytes (k v t : List Nat) (op : Operation)
    (hk16 : k.length < 65536)
    (hL : (paddedPayload k v op t).length < 4294967296) :
    (∃ e, deserialize_entry (paddedEntry k v op t) = .ok e ∧
      e.key = k ∧ e.value = v ∧ e.operation = op) ∧
    (t ≠ [] →
      paddedEntry k v op t ≠ paddedEntry k v op [] ∧
      ∃ e0, deserialize_entry (paddedEntry k v op []) = .ok e0 ∧
        e0.key = k ∧ e0.value = v ∧ e0.operation = op) := by
  have hL0 : (paddedPayload k v op []).length < 4294967296 := by
    have h1 : (paddedPayload k v op []).length = (entryPayload k v op).length := by
      simp [paddedPayload]
    have h2 : (paddedPayload k v op t).length =
        (entryPayload k v op).length + t.length := by
      simp [paddedPayload]
    omega
  refine ⟨⟨paddedExpected k v op t,
    deserialize_paddedEntry k v t op hk16 hL, rfl, rfl, rfl⟩, ?_⟩
  intro ht
  refine ⟨?_, paddedExpected k v op [],
    deserialize_paddedEntry k v [] op hk16 hL0, rfl, rfl, rfl⟩
  intro heq
  have hlen := congrArg List.length heq
  simp only [paddedEntry, List.length_append, toBytes_length, paddedPayload,
    List.length_nil] at hlen
  have : t.length = 0 := by omega
  exact ht (List.length_eq_zero.mp this)

/-- Closed instance of C10: concrete buffers with and without one byte of
trailing residue decode to the same key, value and kind while differing
as byte strings. -/
theorem claim_C10_trailing_bytes_witness :
    ([1] : List Nat).length < 65536 ∧
    (paddedPayload [1] [2] .Put [171]).length < 4294967296 ∧
    ((∃ e, deserialize_entry (paddedEntry [1] [2] .Put [171]) = .ok e ∧
      e.key = [1] ∧ e.value = [2] ∧ e.operation = .Put) ∧
     (([171] : List Nat) ≠ [] →
      paddedEntry [1] [2] .Put [171] ≠ paddedEntry [1] [2] .Put [] ∧
      ∃ e0, deserialize_entry (paddedEntry [1] [2] .Put []) = .ok e0 ∧
        e0.key = [1] ∧ e0.value = [2] ∧ e0.operation = .Put)) :=
  ⟨by decide, by decide,
    claim_C10_trailing_bytes [1] [2] [171] .Put (by decide) (by decide)⟩

/-- Whether a decode attempt failed (used to state that an interior
record is corrupt without fixing the particular error). -/
def isError : Except ClawErr WalEntry → Bool
  | .error _ => true
  | .ok _ => false

/-- Flip the last byte of a buffer (invalidates the payload CRC of an
encoded record without touching its header). -/
def flipLastByte (l : List Nat) : List Nat :=
  l.dropLast ++ [((l.getLast?).getD 0) ^^^ 0xFF]

/-- C5: (interior corruption) a chunk with valid magic whose declared
length matches its extent but whose body fails decoding (CRC mismatch or
bad kind) is skipped by scanning forward from the next byte for the next
magic, and recovery still yields the well-formed records after it;
(torn tail) a trailing chunk with valid magic whose declared length
exceeds the remaining bytes stops the file's recovery, yielding exactly
the complete records before it. -/
theorem claim_C5_corruption_and_torn_tail :
    (∀ (pre post : List LogOp) (C : List Nat),
      (∀ r ∈ pre, r.caps) → (∀ r ∈ post, r.caps) →
      HEADER_SIZE ≤ C.length →
      C.take 4 = MAGIC_ARRAY →
      readLE32 (C.getD 4 0) (C.getD 5 0) (C.getD 6 0) (C.getD 7 0) =
        C.length - HEADER_SIZE →
      isError (deserialize_entry C) = true →
      findNextMagic (C.drop 1 ++ encodeAll post) = some (C.length - 1) →
      recoverLoop (encodeAll pre ++ (C ++ encodeAll post)) =
        pre.map LogOp.entry ++ post.map LogOp.entry) ∧
    (∀ (pre : List LogOp) (T : List Nat),
      (∀ r ∈ pre, r.caps) →
      HEADER_SIZE ≤ T.length →
      T.take 4 = MAGIC_ARRAY →
      T.length < HEADER_SIZE +
        readLE32 (T.getD 4 0) (T.getD 5 0) (T.getD 6 0) (T.getD 7 0) →
      recoverLoop (encodeAll pre ++ T) = pre.map LogOp.entry) := by
  constructor
  · intro pre post C hpre hpost hlen hmagic hfield herr hfind
    rw [recoverLoop_encodeAll_append pre (C ++ encodeAll post) hpre]
    congr 1
    obtain ⟨e, herr'⟩ : ∃ e, deserialize_entry C = .error e := by
      cases h : deserialize_entry C with
      | error e => exact ⟨e, rfl⟩
      | ok _ =>
        rw [h] at herr
        simp [isError] at herr
    have hget : ∀ i, i < 8 → (C ++ encodeAll post).getD i 0 = C.getD i 0 := by
      intro i hi
      apply List.getD_append
      simp only [HEADER_SIZE] at hlen
      omega
    rw [recoverLoop]
    rw [dif_neg (by
      simp only [List.length_append, HEADER_SIZE] at *
      omega)]
    rw [if_neg (by
      rw [List.take_append_of_le_length (by simp only [HEADER_SIZE] at hlen; omega),
        hmagic]
      simp)]
    simp only []
    rw [hget 4 (by omega), hget 5 (by omega), hget 6 (by omega), hget 7 (by omega),
      hfield]
    rw [if_neg (by
      simp only [List.length_append, HEADER_SIZE] at *
      omega)]
    have htake : (C ++ encodeAll post).take (HEADER_SIZE + (C.length - HEADER_SIZE)) =
        C := by
      have h32 : HEADER_SIZE + (C.length - HEADER_SIZE) = C.length := by
        simp only [HEADER_SIZE] at hlen ⊢
        omega
      rw [h32, List.take_left]
    rw [htake, herr']
    have hdrop1 : (C ++ encodeAll post).drop 1 = C.drop 1 ++ encodeAll post :=
      List.drop_append_of_le_length (by simp only [HEADER_SIZE] at hlen; omega)
    simp only [hdrop1, hfind]
    have hdd : (C.drop 1 ++ encodeAll post).drop (C.length - 1) = encodeAll post :=
      List.drop_left' (by simp only [List.length_drop])
    rw [hdd, recoverLoop_encodeAll post hpost]
  · intro pre T hpre hlen hmagic hfield
    rw [recoverLoop_encodeAll_append pre T hpre]
    rw [recoverLoop]
    rw [dif_neg (by simp only [HEADER_SIZE] at *; omega)]
    rw [if_neg (by rw [hmagic]; simp)]
    simp only []
    rw [if_pos (by simp only [HEADER_SIZE] at *; omega)]
    simp

set_option maxRecDepth 100000 in
/-- Closed instance of C5: a three-record file whose middle record's
payload byte is flipped recovers the first and third records; a file
whose tail claims a 255-byte payload that is absent recovers exactly
its complete records. -/
theorem claim_C5_witness :
    isError (deserialize_entry (flipLastByte (encodeEntry [103, 49] [104] .Put))) =
      true ∧
    findNextMagic ((flipLastByte (encodeEntry [103, 49] [104] .Put)).drop 1 ++
      encodeAll [⟨[98], [50], .Put⟩]) =
      some ((flipLastByte (encodeEntry [103, 49] [104] .Put)).length - 1) ∧
    recoverLoop (encodeAll [⟨[97], [49], .Put⟩] ++
        (flipLastByte (encodeEntry [103, 49] [104] .Put) ++
          encodeAll [⟨[98], [50], .Put⟩])) =
      [LogOp.entry ⟨[97], [49], .Put⟩] ++ [LogOp.entry ⟨[98], [50], .Put⟩] ∧
    recoverLoop (encodeAll [⟨[97], [49], .Put⟩] ++
        (MAGIC_ARRAY ++ [255, 0, 0, 0] ++ List.replicate 24 0)) =
      [LogOp.entry ⟨[97], [49], .Put⟩] := by
  refine ⟨by decide, by decide, ?_, ?_⟩
  · exact (claim_C5_corruption_and_torn_tail).1 [⟨[97], [49], .Put⟩]
      [⟨[98], [50], .Put⟩] (flipLastByte (encodeEntry [103, 49] [104] .Put))
      (by decide) (by decide) (by decide) (by decide) (by decide) (by decide)
      (by decide)
  · exact (claim_C5_corruption_and_torn_tail).2 [⟨[97], [49], .Put⟩]
      (MAGIC_ARRAY ++ [255, 0, 0, 0] ++ List.replicate 24 0)
      (by decide) (by decide) (by decide) (by decide)

/-- C4: compacting a data file keeps, for each key appearing in the file,
exactly the last record when it is live (with exactly that value) and
nothing when it is a tombstone; the output has at most one record per key
and no tombstones; and the reported counts are the number of records
scanned, the number of distinct keys whose last record is live, and their
difference. -/
theorem claim_C4_compaction (F : List Nat) :
    (∀ k e, lastFor (scanLoop F 0) k = some e →
      ((∃ e' ∈ scanLoop (compact_file F).1 0, e'.key = k) ↔
        e.is_tombstone = false) ∧
      (∀ e' ∈ scanLoop (compact_file F).1 0, e'.key = k →
        e'.value = e.value ∧ e'.is_tombstone = false)) ∧
    ((scanLoop (compact_file F).1 0).map (fun e => e.key)).Nodup ∧
    (∀ e' ∈ scanLoop (compact_file F).1 0, e'.is_tombstone = false) ∧
    (compact_file F).2.original_entries = (scanLoop F 0).length ∧
    (compact_file F).2.live_entries = (liveEntries (scanLoop F 0)).length ∧
    ((liveEntries (scanLoop F 0)).map (fun e => e.key)).Nodup ∧
    (∀ k, (∃ e ∈ liveEntries (scanLoop F 0), e.key = k) ↔
      (∃ e, lastFor (scanLoop F 0) k = some e ∧ e.is_tombstone = false)) ∧
    (compact_file F).2.removed_entries =
      (scanLoop F 0).length - (liveEntries (scanLoop F 0)).length := by
  have hcapsF : ∀ e ∈ scanLoop F 0,
      e.key.length ≤ MAX_KEY_SIZE ∧ e.value.length ≤ MAX_VALUE_SIZE :=
    scanLoop_caps F.length F 0 (le_refl _)
  have hcapsL : ∀ e ∈ liveEntries (scanLoop F 0),
      e.key.length ≤ MAX_KEY_SIZE ∧ e.value.length ≤ MAX_VALUE_SIZE :=
    fun e he => hcapsF e (mem_buildLatest _ e (List.mem_filter.mp he).1)
  have hout : (compact_file F).1 =
      ((liveEntries (scanLoop F 0)).map fun e =>
        encodeDataRecord e.key e.value).flatten := rfl
  have hproj : (scanLoop (compact_file F).1 0).map
        (fun e => (e.key, e.value, e.is_tombstone)) =
      (liveEntries (scanLoop F 0)).map (fun e => (e.key, e.value, false)) := by
    rw [hout]
    exact scanLoop_encodeData_proj _ 0 hcapsL
  have hmemOut : ∀ e', e' ∈ scanLoop (compact_file F).1 0 →
      ∃ e ∈ liveEntries (scanLoop F 0),
        e.key = e'.key ∧ e.value = e'.value ∧ e'.is_tombstone = false := by
    intro e' he'
    have h1 : (e'.key, e'.value, e'.is_tombstone) ∈
        (liveEntries (scanLoop F 0)).map (fun e => (e.key, e.value, false)) := by
      rw [← hproj]
      exact List.mem_map.mpr ⟨e', he', rfl⟩
    rcases List.mem_map.mp h1 with ⟨e, he, heq⟩
    simp only [Prod.mk.injEq] at heq
    exact ⟨e, he, heq.1, heq.2.1, heq.2.2.symm⟩
  have hmemIn : ∀ e, e ∈ liveEntries (scanLoop F 0) →
      ∃ e' ∈ scanLoop (compact_file F).1 0,
        e'.key = e.key ∧ e'.value = e.value ∧ e'.is_tombstone = false := by
    intro e he
    have h1 : (e.key, e.value, false) ∈ (scanLoop (compact_file F).1 0).map
        (fun e => (e.key, e.value, e.is_tombstone)) := by
      rw [hproj]
      exact List.mem_map.mpr ⟨e, he, rfl⟩
    rcases List.mem_map.mp h1 with ⟨e', he', heq⟩
    simp only [Prod.mk.injEq] at heq
    exact ⟨e', he', heq.1, heq.2.1, heq.2.2⟩
  refine ⟨?_, ?_, ?_, rfl, rfl, nodup_keys_live _, ?_, rfl⟩
  · intro k e hlast
    constructor
    · constructor
      · rintro ⟨e', he', hk⟩
        rcases hmemOut e' he' with ⟨el, hel, hkeq, _, _⟩
        have hel2 := (mem_live_iff (scanLoop F 0) k el).mp ⟨hel, by rw [hkeq, hk]⟩
        have heeq : el = e := by
          have h := hel2.1
          rw [hlast] at h
          exact (Option.some.injEq _ _).mp h.symm
        rw [← heeq]
        exact hel2.2
      · intro htomb
        have hmem := (mem_live_iff (scanLoop F 0) k e).mpr ⟨hlast, htomb⟩
        rcases hmemIn e hmem.1 with ⟨e', he', hk', _, _⟩
        exact ⟨e', he', by rw [hk', hmem.2]⟩
    · intro e' he' hk
      rcases hmemOut e' he' with ⟨el, hel, hkeq, hveq, htomb'⟩
      have hel2 := (mem_live_iff (scanLoop F 0) k el).mp ⟨hel, by rw [hkeq, hk]⟩
      have heeq : el = e := by
        have h := hel2.1
        rw [hlast] at h
        exact (Option.some.injEq _ _).mp h.symm
      exact ⟨by rw [← hveq, heeq], htomb'⟩
  · have hkeys : (scanLoop (compact_file F).1 0).map (fun e => e.key) =
        (liveEntries (scanLoop F 0)).map (fun e => e.key) := by
      have h := congrArg (List.map (fun p : List Nat × List Nat × Bool => p.1)) hproj
      simpa [List.map_map, Function.comp] using h
    rw [hkeys]
    exact nodup_keys_live _
  · intro e' he'
    rcases hmemOut e' he' with ⟨_, _, _, _, htomb⟩
    exact htomb
  · intro k
    constructor
    · rintro ⟨e, he, hk⟩
      exact ⟨e, (mem_live_iff _ k e).mp ⟨he, hk⟩⟩
    · rintro ⟨e, hlast, htomb⟩
      have h := (mem_live_iff _ k e).mpr ⟨hlast, htomb⟩
      exact ⟨e, h.1, h.2⟩

/-- A concrete data file: live `("k","a")`, live `("d","t")`, then a
tombstone for `"d"`. -/
def sampleDataFile : List Nat :=
  encodeDataRecordFlags [107] [97] 0 ++
    (encodeDataRecordFlags [100] [116] 0 ++ (encodeDataRecordFlags [100] [] 1 ++ []))

theorem sample_scan :
    scanLoop sampleDataFile 0 =
      [{ key := [107], value := [97], offset := 0, is_tombstone := false },
       { key := [100], value := [116], offset := 26, is_tombstone := false },
       { key := [100], value := [], offset := 52, is_tombstone := true }] := by
  rw [show sampleDataFile = encodeDataRecordFlags [107] [97] 0 ++
      (encodeDataRecordFlags [100] [116] 0 ++
        (encodeDataRecordFlags [100] [] 1 ++ [])) from rfl]
  rw [scanLoop_encodeDataFlags_cons [107] [97] _ 0 0 (by decide) (by decide)]
  rw [scanLoop_encodeDataFlags_cons [100] [116] _ 0 _ (by decide) (by decide)]
  rw [scanLoop_encodeDataFlags_cons [100] [] _ 1 _ (by decide) (by decide)]
  rw [scanLoop_nil]
  decide

/-- Closed instance of C4 on a three-record file: the deleted key is
absent from the compacted file, the live key is present, and the counts
are 3 scanned, 1 live, 2 removed. -/
theorem claim_C4_compaction_witness :
    lastFor (scanLoop sampleDataFile 0) [100] =
      some { key := [100], value := [], offset := 52, is_tombstone := true } ∧
    lastFor (scanLoop sampleDataFile 0) [107] =
      some { key := [107], value := [97], offset := 0, is_tombstone := false } ∧
    (¬ ∃ e' ∈ scanLoop (compact_file sampleDataFile).1 0, e'.key = [100]) ∧
    (∃ e' ∈ scanLoop (compact_file sampleDataFile).1 0, e'.key = [107]) ∧
    (compact_file sampleDataFile).2.original_entries = 3 ∧
    (compact_file sampleDataFile).2.live_entries = 1 ∧
    (compact_file sampleDataFile).2.removed_entries = 2 := by
  have hc4 := claim_C4_compaction sampleDataFile
  have hlast100 : lastFor (scanLoop sampleDataFile 0) [100] =
      some { key := [100], value := [], offset := 52, is_tombstone := true } := by
    rw [sample_scan]
    decide
  have hlast107 : lastFor (scanLoop sampleDataFile 0) [107] =
      some { key := [107], value := [97], offset := 0, is_tombstone := false } := by
    rw [sample_scan]
    decide
  refine ⟨hlast100, hlast107, ?_, ?_, ?_, ?_, ?_⟩
  · intro hex
    have h := (hc4.1 [100] _ hlast100).1.mp hex
    simp at h
  · exact (hc4.1 [107] _ hlast107).1.mpr rfl
  · rw [hc4.2.2.2.1, sample_scan]
    decide
  · rw [hc4.2.2.2.2.1, sample_scan]
    decide
  · rw [hc4.2.2.2.2.2.2.2, sample_scan]
    decide

end ClawStore
